import Mathlib

/-!
# Verification of the MatrixMagic numerical linear-algebra core

Shallow embedding, over exact rational arithmetic, of the matrix/vector
library (`matrixOperations`) and the algorithm variants embedded in the
calculator/visualization components (equation solver by RREF, traced
Gaussian elimination, traced LU decomposition, matrix powers).

Matrices are lists of rows of rationals, mirroring `number[][]`.
Out-of-range reads default to `0` (resp. `[]`); the claims only concern
in-range, rectangular inputs.
-/

namespace MatrixMagic

/-- A matrix is a list of rows (`number[][]` in the source). -/
abbrev Mat := List (List ℚ)

/-- The near-zero tolerance `1e-10` used by all pivot/singularity decisions. -/
def tol : ℚ := 1 / 10 ^ 10

/-- Row `i` of a matrix (`matrix[i]`). -/
def getm (m : Mat) (i : ℕ) : List ℚ := m.getD i []

/-- Entry `j` of a row (`row[j]`). -/
def getv (r : List ℚ) (j : ℕ) : ℚ := r.getD j 0

/-- `createMatrix(rows, cols, fill)`. -/
def createMatrix (rows cols : ℕ) (fill : ℚ := 0) : Mat :=
  List.replicate rows (List.replicate cols fill)

/-- `isValidMatrix`: nonempty and rectangular. -/
def isValidMatrix (m : Mat) : Bool :=
  !m.isEmpty && m.all (fun row => row.length = (getm m 0).length)

/-- The square identity matrix (as built entry-wise in the source). -/
def identityMatrix (n : ℕ) : Mat :=
  (List.range n).map (fun i => (List.range n).map (fun j => if i = j then (1 : ℚ) else 0))

/-- Error taxonomy of the library (spec §7). -/
inductive MatErr where
  | dimensionMismatch
  | notSquare
  | singular
  | degenerateInput
  | invalidPower
  deriving DecidableEq, Repr

/-- `addMatrices` (dimension guard then entrywise sum). -/
def addMatrices (a b : Mat) : Except MatErr Mat :=
  if a.length ≠ b.length ∨ (getm a 0).length ≠ (getm b 0).length then
    .error .dimensionMismatch
  else
    .ok (a.zipWith (fun rowA rowB => rowA.zipWith (· + ·) rowB) b)

/-- `subtractMatrices`. -/
def subtractMatrices (a b : Mat) : Except MatErr Mat :=
  if a.length ≠ b.length ∨ (getm a 0).length ≠ (getm b 0).length then
    .error .dimensionMismatch
  else
    .ok (a.zipWith (fun rowA rowB => rowA.zipWith (· - ·) rowB) b)

/-- The value computed by `multiplyMatrices`'s triple accumulation loop
(entry `(i,j)` accumulates `a[i][k] * b[k][j]` over `k < a[0].length`). -/
def multVal (a b : Mat) : Mat :=
  (List.range a.length).map (fun i =>
    (List.range (getm b 0).length).map (fun j =>
      (List.range (getm a 0).length).foldl
        (fun acc k => acc + getv (getm a i) k * getv (getm b k) j) 0))

/-- `multiplyMatrices` with its dimension guard. -/
def multiplyMatrices (a b : Mat) : Except MatErr Mat :=
  if (getm a 0).length ≠ b.length then .error .dimensionMismatch
  else .ok (multVal a b)

/-- `scalarMultiply`. -/
def scalarMultiply (m : Mat) (c : ℚ) : Mat :=
  m.map (fun row => row.map (· * c))

/-- `transpose`: for each column index of the first row, collect that column. -/
def transpose (m : Mat) : Mat :=
  (List.range (getm m 0).length).map (fun c => m.map (fun row => getv row c))

/-- The minor of `matrix` dropping row 0 and column `i`
(`matrix.slice(1).map(row => row.filter((_, j) => j !== i))`). -/
def minorM (m : Mat) (i : ℕ) : Mat :=
  (m.drop 1).map (fun row => row.eraseIdx i)

/-- `determinant`'s recursion, made structural on a fuel argument equal
to the row count (each minor has exactly one row fewer, so the fuel never
runs out on the inputs `detVal` passes in): 1×1 and 2×2 base cases,
otherwise cofactor expansion along the first row. -/
def detValAux : ℕ → Mat → ℚ
  | 0, _ => 0
  | fuel + 1, m =>
    if m.length = 1 then getv (getm m 0) 0
    else if m.length = 2 then
      getv (getm m 0) 0 * getv (getm m 1) 1 - getv (getm m 0) 1 * getv (getm m 1) 0
    else
      (List.range m.length).foldl
        (fun det i => det + getv (getm m 0) i * (-1 : ℚ) ^ i * detValAux fuel (minorM m i)) 0

/-- `determinant`'s recursive value.  (A 0×0 input crashes in the source —
`matrix[0].length` on `undefined` — and is modelled as 0 here; all claims
concern matrices with at least one row.) -/
def detVal (m : Mat) : ℚ :=
  detValAux m.length m

/-- `determinant` with its squareness guard. -/
def determinant (m : Mat) : Except MatErr ℚ :=
  if m.length ≠ (getm m 0).length then .error .notSquare
  else .ok (detVal m)

/-! ## Row-reduction engine -/

/-- The pivot search shared by `rref`, `gaussJordan` and the traced
Gaussian elimination: starting from `start`, scan rows `start+1 … rows-1`
and keep the row whose entry in `col` has the strictly largest absolute
value. -/
def findPivotRow (m : Mat) (col start rows : ℕ) : ℕ :=
  ((List.range rows).drop (start + 1)).foldl
    (fun maxRow i =>
      if |getv (getm m i) col| > |getv (getm m maxRow) col| then i else maxRow)
    start

/-- Swap rows `i` and `j` (array-destructuring swap in the source). -/
def swapRows (m : Mat) (i j : ℕ) : Mat :=
  (m.set i (getm m j)).set j (getm m i)

/-- Divide every entry of a row by the pivot (`row[j] /= pivot`). -/
def scaleRow (r : List ℚ) (p : ℚ) : List ℚ :=
  r.map (· / p)

/-- `target[j] -= factor * pivotRowVals[j]` over the whole row. -/
def elimRow (target pivotRowVals : List ℚ) (factor : ℚ) : List ℚ :=
  target.zipWith (fun a b => a - factor * b) pivotRowVals

/-- The column-clearing loop of `rref` (and of the traced Gaussian
elimination): for every row other than the pivot row whose entry in `col`
exceeds the tolerance, subtract `factor` times the pivot row. -/
def rrefElimFold (rows pr col : ℕ) (m : Mat) : Mat :=
  (List.range rows).foldl
    (fun acc i =>
      if i ≠ pr ∧ |getv (getm acc i) col| > tol then
        acc.set i (elimRow (getm acc i) (getm acc pr) (getv (getm acc i) col))
      else acc)
    m

/-- One column step of `rref`: the body of the `for (col …)` loop, with the
loop condition `pivotRow < rows` folded in (once the cursor reaches `rows`
the remaining columns change nothing, exactly as the `for` loop exit). -/
def rrefStep (rows : ℕ) (st : Mat × ℕ) (col : ℕ) : Mat × ℕ :=
  if st.2 < rows then
    let m := st.1
    let pr := st.2
    let maxRow := findPivotRow m col pr rows
    if |getv (getm m maxRow) col| < tol then st
    else
      let m1 := swapRows m pr maxRow
      let pivot := getv (getm m1 pr) col
      let m2 := m1.set pr (scaleRow (getm m1 pr) pivot)
      (rrefElimFold rows pr col m2, pr + 1)
  else st

/-- `rref`: fold the column step over all columns, starting from the
fresh copy of the input with the pivot cursor at 0. -/
def rref (m : Mat) : Mat :=
  ((List.range (getm m 0).length).foldl (rrefStep m.length) (m, 0)).1

/-- `rank`: rows of the RREF that are not entirely within tolerance of zero. -/
def rank (m : Mat) : ℕ :=
  ((rref m).filter (fun row => row.any (fun v => |v| > tol))).length

/-- One step of `gaussJordan` (used by `inverse` for n > 2): unconditional
swap with the partial pivot, then — only if the pivot is at least the
tolerance — scale the pivot row and eliminate the column in every other
row (no tolerance filter on the factor).  A sub-tolerance pivot is skipped
(`continue`); the Boolean records whether any column was skipped. -/
def gjStep (rows : ℕ) (st : Mat × Bool) (i : ℕ) : Mat × Bool :=
  let m := st.1
  let maxRow := findPivotRow m i i rows
  let m1 := swapRows m i maxRow
  let pivot := getv (getm m1 i) i
  if |pivot| < tol then (m1, true)
  else
    let m2 := m1.set i (scaleRow (getm m1 i) pivot)
    let m3 := (List.range rows).foldl
      (fun acc k =>
        if k ≠ i then
          acc.set k (elimRow (getm acc k) (getm acc i) (getv (getm acc k) i))
        else acc)
      m2
    (m3, st.2)

/-- `gaussJordan` instrumented with a skipped-pivot flag. -/
def gaussJordanAux (m : Mat) : Mat × Bool :=
  (List.range (min m.length (getm m 0).length)).foldl (gjStep m.length) (m, false)

/-- `gaussJordan` as in the source (result only). -/
def gaussJordan (m : Mat) : Mat :=
  (gaussJordanAux m).1

/-- The augmented `[A|I]` matrix built by `inverse` for n > 2. -/
def augmentIdentity (m : Mat) : Mat :=
  (List.range m.length).map (fun i =>
    getm m i ++ (List.range m.length).map (fun j => if i = j then (1 : ℚ) else 0))

/-- `inverse`: squareness guard, determinant singularity guard, 2×2 closed
form, else Gauss–Jordan on `[A|I]` and take the right half. -/
def inverse (m : Mat) : Except MatErr Mat :=
  let n := m.length
  if n ≠ (getm m 0).length then .error .notSquare
  else
    let det := detVal m
    if |det| < tol then .error .singular
    else if n = 2 then
      .ok [[getv (getm m 1) 1 / det, -getv (getm m 0) 1 / det],
           [-getv (getm m 1) 0 / det, getv (getm m 0) 0 / det]]
    else
      .ok (((gaussJordan (augmentIdentity m)).take n).map (fun row => row.drop n))

/-- `true` when `inverse` reaches Gauss–Jordan and some pivot candidate
there falls below the tolerance (the `continue` branch). -/
def inverseSkipsPivot (m : Mat) : Bool :=
  (gaussJordanAux (augmentIdentity m)).2

/-! ## Equation solver (RREF method) -/

/-- Solver outcome: the `type` tag with its payload (`solution` vector for
`unique`, free-variable count for `infinite`).  Messages and textual steps
are presentation only and omitted. -/
inductive Solution where
  | noSolution
  | unique (solution : List ℚ)
  | infinite (freeVars : ℤ)
  deriving DecidableEq, Repr

/-- The augmented `[A|b]` matrix built by `solveByRREF`. -/
def augmentVec (A : Mat) (b : List ℚ) : Mat :=
  (List.range A.length).map (fun i => getm A i ++ [b.getD i 0])

/-- A contradiction row: coefficient part entirely below tolerance while
the augmented entry exceeds it. -/
def isContradictionRow (row : List ℚ) (n : ℕ) : Bool :=
  (row.take n).all (fun v => |v| < tol) && |getv row n| > tol

/-- The leading column of a row: the first of the `n` coefficient columns
whose entry exceeds the tolerance (the inner `j` loop with `break`). -/
def leadCol (row : List ℚ) (n : ℕ) : Option ℕ :=
  (List.range n).find? (fun j => |getv row j| > tol)

/-- The pivot-column list collected by `solveByRREF`: scan the rows of the
RREF in order and record each row's leading column when it has one. -/
def pivotColsOf (R : Mat) (n : ℕ) : List ℕ :=
  (List.range R.length).filterMap (fun i => leadCol (getm R i) n)

/-- The solution vector assembled in the unique case:
`solution[pivotCols[i]] = R[i][n]` for `i < pivotCount`, over an all-zero
initial vector. -/
def assembleSolution (R : Mat) (pivotCols : List ℕ) (n : ℕ) : List ℚ :=
  (List.range pivotCols.length).foldl
    (fun sol i => sol.set (pivotCols.getD i 0) (getv (getm R i) n))
    (List.replicate n 0)

/-- `solveByRREF`: augment, reduce, scan for a contradiction row, then
classify by pivot count against the variable count. -/
def solveByRREF (A : Mat) (b : List ℚ) : Solution :=
  let R := rref (augmentVec A b)
  let m := R.length
  let n := (getm R 0).length - 1
  match (List.range m).find? (fun i => isContradictionRow (getm R i) n) with
  | some _ => .noSolution
  | none =>
    let pivotCols := pivotColsOf R n
    if pivotCols.length = n then .unique (assembleSolution R pivotCols n)
    else .infinite ((n : ℤ) - pivotCols.length)

/-! ## Matrix powers -/

/-- `matrixPower`: identity for exponent 0, the input itself for 1, else
`power - 1` successive multiplications by `A`.  Multiplication failures
(impossible for square input) propagate. -/
def matrixPower (A : Mat) (power : ℕ) : Except MatErr Mat :=
  if power = 0 then .ok (identityMatrix A.length)
  else if power = 1 then .ok A
  else
    (List.range (power - 1)).foldlM (fun res _ => multiplyMatrices res A) A

/-- The `'power'` branch of `calculateMatrixFunction`: squareness guard,
then the `!power || power < 0` guard (which also rejects `power = 0`,
since `!0` is true in JavaScript), then `matrixPower`. -/
def calculateMatrixFunctionPower (A : Mat) (power : Option ℤ) : Except MatErr Mat :=
  if A.length ≠ (getm A 0).length then .error .notSquare
  else
    match power with
    | none => .error .invalidPower
    | some p =>
      if p = 0 ∨ p < 0 then .error .invalidPower
      else matrixPower A p.toNat

/-! ## Vector module (over ℝ, matching the float-valued source) -/

/-- The accumulation in `dotProduct` (`sum + val * b[i]` over `a`'s indices). -/
def dotVal (a b : List ℝ) : ℝ :=
  (List.range a.length).foldl (fun s i => s + a.getD i 0 * b.getD i 0) 0

/-- `dotProduct` with its equal-length guard. -/
def dotProduct (a b : List ℝ) : Except MatErr ℝ :=
  if a.length ≠ b.length then .error .dimensionMismatch
  else .ok (dotVal a b)

/-- `crossProduct` (3-dimensional vectors only). -/
def crossProduct (a b : List ℝ) : Except MatErr (List ℝ) :=
  if a.length ≠ 3 ∨ b.length ≠ 3 then .error .dimensionMismatch
  else
    .ok [a.getD 1 0 * b.getD 2 0 - a.getD 2 0 * b.getD 1 0,
         a.getD 2 0 * b.getD 0 0 - a.getD 0 0 * b.getD 2 0,
         a.getD 0 0 * b.getD 1 0 - a.getD 1 0 * b.getD 0 0]

/-- The sum of squares accumulated inside `vectorMagnitude`. -/
def sumSq (v : List ℝ) : ℝ :=
  v.foldl (fun s x => s + x * x) 0

/-- `vectorMagnitude`: Euclidean norm. -/
noncomputable def vectorMagnitude (v : List ℝ) : ℝ :=
  Real.sqrt (sumSq v)

/-- `normalizeVector` (fails on a zero-magnitude vector). -/
noncomputable def normalizeVector (v : List ℝ) : Except MatErr (List ℝ) :=
  if vectorMagnitude v = 0 then .error .degenerateInput
  else .ok (v.map (· / vectorMagnitude v))

/-- `angleBetweenVectors`: dot product (with its length guard), zero-
magnitude guard, then `arccos` of the cosine clamped into `[-1, 1]` by
`Math.max(-1, Math.min(1, ·))`. -/
noncomputable def angleBetweenVectors (a b : List ℝ) : Except MatErr ℝ :=
  match dotProduct a b with
  | .error e => .error e
  | .ok dot =>
    let magA := vectorMagnitude a
    let magB := vectorMagnitude b
    if magA = 0 ∨ magB = 0 then .error .degenerateInput
    else .ok (Real.arccos (max (-1) (min 1 (dot / (magA * magB)))))

/-! ## Traced Gaussian elimination (`generateGaussianSteps`) -/

/-- The kinds of steps the Gaussian trace emits (descriptions and
explanations are presentation strings and carry no further data). -/
inductive GKind where
  | start
  | swapStep (r1 r2 : ℕ)
  | scaleStep (r : ℕ)
  | elimStep (r pr : ℕ)
  | complete
  deriving DecidableEq, Repr

/-- One emitted step: ordinal id, kind, and the matrix snapshot taken
after the operation (`result.map(row => [...row])`). -/
structure GStep where
  id : ℕ
  kind : GKind
  matrix : Mat
  deriving DecidableEq, Repr

/-- Loop state of the traced Gaussian elimination.  `nearOne` is
instrumentation: it records whether some selected pivot was within the
tolerance of 1 without being exactly 1 (in that case the trace skips the
scaling division that `rref` always performs). -/
structure GaussSt where
  m : Mat
  pr : ℕ
  sid : ℕ
  steps : List GStep
  nearOne : Bool

/-- The column-clearing loop of the traced Gaussian elimination: the same
eliminations as `rrefElimFold`, threading the step counter and emitting
one step (with post-operation snapshot) per actual elimination. -/
def gaussElimFold (rows pr col : ℕ) (init : Mat × ℕ × List GStep) : Mat × ℕ × List GStep :=
  (List.range rows).foldl
    (fun acc i =>
      if i ≠ pr ∧ |getv (getm acc.1 i) col| > tol then
        let am := acc.1.set i
          (elimRow (getm acc.1 i) (getm acc.1 pr) (getv (getm acc.1 i) col))
        (am, acc.2.1 + 1, acc.2.2 ++ [⟨acc.2.1, GKind.elimStep i pr, am⟩])
      else acc)
    init

/-- Body of the traced column loop: same pivot search, swap, scale and
eliminate as `rrefStep`, except that the swap happens (and a swap step is
emitted) only when the rows differ, and the scaling division is performed
(and a scale step emitted) only when `|pivot - 1| > tol`. -/
def gaussTraceStep (rows : ℕ) (st : GaussSt) (col : ℕ) : GaussSt :=
  if st.pr < rows then
    let maxRow := findPivotRow st.m col st.pr rows
    if |getv (getm st.m maxRow) col| < tol then st
    else
      let m1 := if maxRow ≠ st.pr then swapRows st.m st.pr maxRow else st.m
      let sid1 := if maxRow ≠ st.pr then st.sid + 1 else st.sid
      let steps1 :=
        if maxRow ≠ st.pr then st.steps ++ [⟨st.sid, .swapStep st.pr maxRow, m1⟩]
        else st.steps
      let pivot := getv (getm m1 st.pr) col
      let scaled := |pivot - 1| > tol
      let m2 := if scaled then m1.set st.pr (scaleRow (getm m1 st.pr) pivot) else m1
      let sid2 := if scaled then sid1 + 1 else sid1
      let steps2 :=
        if scaled then steps1 ++ [⟨sid1, .scaleStep st.pr, m2⟩] else steps1
      let nearOne2 := st.nearOne || (!scaled && decide (pivot ≠ 1))
      let elim := gaussElimFold rows st.pr col (m2, sid2, steps2)
      ⟨elim.1, st.pr + 1, elim.2.1, elim.2.2, nearOne2⟩
  else st

/-- The traced run before the terminal step is appended. -/
def generateGaussianStepsAux (A : Mat) : GaussSt :=
  (List.range (getm A 0).length).foldl (gaussTraceStep A.length)
    ⟨A, 0, 1, [⟨0, .start, A⟩], false⟩

/-- `generateGaussianSteps`: the starting-state step, the emitted row
operations, and the terminal completion step carrying the final matrix. -/
def generateGaussianSteps (A : Mat) : List GStep :=
  let st := generateGaussianStepsAux A
  st.steps ++ [⟨st.sid, .complete, st.m⟩]

/-- Instrumentation: `true` when some pivot of the traced run lay within
tolerance of 1 without being exactly 1. -/
def gaussTraceNearOnePivot (A : Mat) : Bool :=
  (generateGaussianStepsAux A).nearOne

/-! ## Traced LU decomposition (`generateLUSteps`)

The source pushes a live reference to the mutable `U` array into every
step record (not a copy), so all records end up displaying the same final
matrix; since the claims about this trace concern only the order and
kinds of the steps, the step records here carry the ordinal id and the
kind (with its indices) and omit the aliased matrix field. -/

/-- Step kinds of the LU trace. -/
inductive LKind where
  | errNotSquare
  | luInit
  | luColumn (k : ℕ)
  | luElim (i k : ℕ)
  | luZeroPivot
  | luComplete
  deriving DecidableEq, Repr

/-- An LU trace step: ordinal id and kind. -/
structure LStep where
  id : ℕ
  kind : LKind
  deriving DecidableEq, Repr

/-- `U[i][j] -= factor * U[k][j]` for `j = k … n-1` (row length is n). -/
def elimRowFrom (target src : List ℚ) (factor : ℚ) (k : ℕ) : List ℚ :=
  (List.range target.length).map (fun j =>
    if k ≤ j then getv target j - factor * getv src j else getv target j)

/-- Result of the inner elimination loop of one LU column: either the
loop ran to completion, or a sub-tolerance pivot aborted the whole trace. -/
inductive LuRes where
  | cont (U L : Mat) (sid : ℕ) (steps : List LStep)
  | abort (steps : List LStep)

/-- The inner `for (i = k+1; i < n; i++)` loop: check the pivot, then
record the multiplier into `L` and eliminate `U[i][k]`, emitting one step
per elimination; a sub-tolerance pivot appends the explanatory error step
and aborts. -/
def luInner (k : ℕ) : List ℕ → Mat → Mat → ℕ → List LStep → LuRes
  | [], U, L, sid, steps => .cont U L sid steps
  | i :: rest, U, L, sid, steps =>
    if |getv (getm U k) k| < tol then
      .abort (steps ++ [⟨sid, .luZeroPivot⟩])
    else
      let factor := getv (getm U i) k / getv (getm U k) k
      let L' := L.set i ((getm L i).set k factor)
      let U' := U.set i (elimRowFrom (getm U i) (getm U k) factor k)
      luInner k rest U' L' (sid + 1) (steps ++ [⟨sid, .luElim i k⟩])

/-- The outer `for (k = 0; k < n-1; k++)` loop, threading `U`, `L`, the
step counter and the emitted steps; returns the final step list and
whether the trace was aborted by a zero pivot. -/
def luOuter (n : ℕ) : List ℕ → Mat → Mat → ℕ → List LStep → List LStep × Bool
  | [], _, _, sid, steps => (steps ++ [⟨sid, .luComplete⟩], false)
  | k :: rest, U, L, sid, steps =>
    match luInner k (List.range' (k + 1) (n - (k + 1))) U L (sid + 1)
        (steps ++ [⟨sid, .luColumn k⟩]) with
    | .abort s => (s, true)
    | .cont U' L' sid' steps' => luOuter n rest U' L' sid' steps'

/-- The LU trace with its abort flag. -/
def generateLUStepsAux (A : Mat) : List LStep × Bool :=
  let n := A.length
  if n ≠ (getm A 0).length then ([⟨0, .errNotSquare⟩], false)
  else luOuter n (List.range (n - 1)) A (identityMatrix n) 1 [⟨0, .luInit⟩]

/-- `generateLUSteps`: squareness error step, or the initialize step,
the per-column elimination steps, and a terminal step that is either the
completion step or the zero-pivot error step. -/
def generateLUSteps (A : Mat) : List LStep :=
  (generateLUStepsAux A).1

/-- `true` when the traced LU run hit a sub-tolerance pivot and aborted. -/
def luHitsZeroPivot (A : Mat) : Bool :=
  (generateLUStepsAux A).2

/-! ## Reference-level model of allocation and aliasing

The spec's non-mutation/freshness claims are about JavaScript object
identity, so each operation is also modelled one level up: a store is a
list of matrix (resp. vector) objects, a reference is an index into it,
and each operation maps a store and argument references to the updated
store and the reference of its result (`none` when the source throws).
Operations whose source builds the result with `map`/`createMatrix`/
literals allocate a fresh object; `matrixPower` with exponent 1 executes
`return A` and therefore returns its argument reference unchanged.  No
operation writes to an existing store cell, mirroring the fact that the
source only ever mutates freshly created arrays. -/

/-- Append a fresh object to a store, returning its reference. -/
def alloc {α : Type} (s : List α) (x : α) : List α × ℕ :=
  (s ++ [x], s.length)

/-- Lift an always-succeeding matrix-producing operation. -/
def refOk {α : Type} (s : List α) (v : α) : List α × Option ℕ :=
  ((alloc s v).1, some (alloc s v).2)

/-- Lift a fallible matrix-producing operation (a throw returns nothing). -/
def refOf {α β : Type} (s : List α) : Except β α → List α × Option ℕ
  | .error _ => (s, none)
  | .ok v => refOk s v

/-- `addMatrices` at the reference level. -/
def addMatricesRef (s : List Mat) (a b : ℕ) : List Mat × Option ℕ :=
  refOf s (addMatrices (s.getD a []) (s.getD b []))

/-- `subtractMatrices` at the reference level. -/
def subtractMatricesRef (s : List Mat) (a b : ℕ) : List Mat × Option ℕ :=
  refOf s (subtractMatrices (s.getD a []) (s.getD b []))

/-- `multiplyMatrices` at the reference level. -/
def multiplyMatricesRef (s : List Mat) (a b : ℕ) : List Mat × Option ℕ :=
  refOf s (multiplyMatrices (s.getD a []) (s.getD b []))

/-- `scalarMultiply` at the reference level. -/
def scalarMultiplyRef (s : List Mat) (a : ℕ) (c : ℚ) : List Mat × Option ℕ :=
  refOk s (scalarMultiply (s.getD a []) c)

/-- `transpose` at the reference level. -/
def transposeRef (s : List Mat) (a : ℕ) : List Mat × Option ℕ :=
  refOk s (transpose (s.getD a []))

/-- `determinant` at the reference level (returns a number, not a
reference; the store is untouched). -/
def determinantRef (s : List Mat) (a : ℕ) : List Mat × Except MatErr ℚ :=
  (s, determinant (s.getD a []))

/-- `inverse` at the reference level. -/
def inverseRef (s : List Mat) (a : ℕ) : List Mat × Option ℕ :=
  refOf s (inverse (s.getD a []))

/-- `rref` at the reference level (fresh copy is reduced and returned). -/
def rrefRef (s : List Mat) (a : ℕ) : List Mat × Option ℕ :=
  refOk s (rref (s.getD a []))

/-- `rank` at the reference level. -/
def rankRef (s : List Mat) (a : ℕ) : List Mat × ℕ :=
  (s, rank (s.getD a []))

/-- `matrixPower` at the reference level: `power === 1` executes
`return A`, handing back the argument reference itself; every other
exponent allocates a fresh result. -/
def matrixPowerRef (s : List Mat) (a : ℕ) (p : ℕ) : List Mat × Option ℕ :=
  if p = 1 then (s, some a)
  else refOf s (matrixPower (s.getD a []) p)

/-- `dotProduct` at the reference level (vector store; returns a number). -/
def dotProductRef (s : List (List ℝ)) (a b : ℕ) : List (List ℝ) × Except MatErr ℝ :=
  (s, dotProduct (s.getD a []) (s.getD b []))

/-- `crossProduct` at the reference level. -/
def crossProductRef (s : List (List ℝ)) (a b : ℕ) : List (List ℝ) × Option ℕ :=
  refOf s (crossProduct (s.getD a []) (s.getD b []))

/-- `vectorMagnitude` at the reference level (returns a number). -/
noncomputable def vectorMagnitudeRef (s : List (List ℝ)) (a : ℕ) : List (List ℝ) × ℝ :=
  (s, vectorMagnitude (s.getD a []))

/-- `normalizeVector` at the reference level. -/
noncomputable def normalizeVectorRef (s : List (List ℝ)) (a : ℕ) : List (List ℝ) × Option ℕ :=
  refOf s (normalizeVector (s.getD a []))

/-- `angleBetweenVectors` at the reference level (returns a number). -/
noncomputable def angleBetweenVectorsRef (s : List (List ℝ)) (a b : ℕ) :
    List (List ℝ) × Except MatErr ℝ :=
  (s, angleBetweenVectors (s.getD a []) (s.getD b []))

/-- The frame/freshness contract of the core operations at the reference
level: every call leaves the existing store intact (only appending new
objects, so no input's contents ever change), and every operation that
returns a matrix or vector hands back a freshly allocated reference —
except `matrixPower` with exponent 1, which returns its input reference
(`return A` in the source). -/
def opsFrameProp (s : List Mat) (vs : List (List ℝ)) (a b va vb : ℕ) (c : ℚ) (p : ℕ) :
    Prop :=
  ((∃ ext, (addMatricesRef s a b).1 = s ++ ext)
    ∧ ∀ r, (addMatricesRef s a b).2 = some r → r ≠ a ∧ r ≠ b)
  ∧ ((∃ ext, (subtractMatricesRef s a b).1 = s ++ ext)
    ∧ ∀ r, (subtractMatricesRef s a b).2 = some r → r ≠ a ∧ r ≠ b)
  ∧ ((∃ ext, (multiplyMatricesRef s a b).1 = s ++ ext)
    ∧ ∀ r, (multiplyMatricesRef s a b).2 = some r → r ≠ a ∧ r ≠ b)
  ∧ ((∃ ext, (scalarMultiplyRef s a c).1 = s ++ ext)
    ∧ ∀ r, (scalarMultiplyRef s a c).2 = some r → r ≠ a)
  ∧ ((∃ ext, (transposeRef s a).1 = s ++ ext)
    ∧ ∀ r, (transposeRef s a).2 = some r → r ≠ a)
  ∧ (determinantRef s a).1 = s
  ∧ ((∃ ext, (inverseRef s a).1 = s ++ ext)
    ∧ ∀ r, (inverseRef s a).2 = some r → r ≠ a)
  ∧ ((∃ ext, (rrefRef s a).1 = s ++ ext)
    ∧ ∀ r, (rrefRef s a).2 = some r → r ≠ a)
  ∧ (rankRef s a).1 = s
  ∧ ((∃ ext, (matrixPowerRef s a p).1 = s ++ ext)
    ∧ (p ≠ 1 → ∀ r, (matrixPowerRef s a p).2 = some r → r ≠ a)
    ∧ (p = 1 → matrixPowerRef s a p = (s, some a)))
  ∧ (dotProductRef vs va vb).1 = vs
  ∧ ((∃ ext, (crossProductRef vs va vb).1 = vs ++ ext)
    ∧ ∀ r, (crossProductRef vs va vb).2 = some r → r ≠ va ∧ r ≠ vb)
  ∧ (vectorMagnitudeRef vs va).1 = vs
  ∧ ((∃ ext, (normalizeVectorRef vs va).1 = vs ++ ext)
    ∧ ∀ r, (normalizeVectorRef vs va).2 = some r → r ≠ va)
  ∧ (angleBetweenVectorsRef vs va vb).1 = vs

/-! ## Bridge to Mathlib matrices -/

/-- The `Matrix (Fin n) (Fin n) ℚ` denoted by a list-of-rows matrix
(out-of-range entries read 0, matching the JS `undefined` guards never
being hit on rectangular input). -/
def toFin (m : Mat) (n : ℕ) : Matrix (Fin n) (Fin n) ℚ :=
  fun i j => getv (getm m i) j

/-- The leading index of a row: the first position holding a nonzero
entry, if any. -/
def leadIdx (row : List ℚ) : Option ℕ :=
  (List.range row.length).find? (fun j => decide (getv row j ≠ 0))

/-- Exact reduced row-echelon form: rectangular; zero rows below all
nonzero rows; every leading entry equal to 1; leading indices strictly
increasing down the rows; and every leading column zero in all other
rows.  This is the textbook RREF the spec's row-reduction engine aims
for, with exact (not tolerance-based) zeros. -/
def IsRREF (m : Mat) : Prop :=
  (∀ r ∈ m, r.length = (getm m 0).length)
  ∧ (∀ i j : ℕ, i ≤ j → j < m.length →
      leadIdx (getm m i) = none → leadIdx (getm m j) = none)
  ∧ (∀ i c : ℕ, i < m.length → leadIdx (getm m i) = some c → getv (getm m i) c = 1)
  ∧ (∀ i j ci cj : ℕ, i < j → j < m.length →
      leadIdx (getm m i) = some ci → leadIdx (getm m j) = some cj → ci < cj)
  ∧ (∀ i c i' : ℕ, i < m.length → leadIdx (getm m i) = some c →
      i' < m.length → i' ≠ i → getv (getm m i') c = 0)

/-- The invariant of the `rref` column loop on a matrix already in exact
RREF: after the columns before `c` are processed, the cursor `r` sits
just past the rows whose leading index is below `c`, and every later
row's leading index (when present) is at least `c`. -/
def RrefCursorInv (m : Mat) (c r : ℕ) : Prop :=
  r ≤ m.length
  ∧ (∀ i, i < r → ∃ L, leadIdx (getm m i) = some L ∧ L < c)
  ∧ (∀ i, r ≤ i → i < m.length → ∀ L, leadIdx (getm m i) = some L → c ≤ L)

/-- The value the solver's assignment loop leaves in variable `c`: the
augmented entry of the last scanned row whose leading column is `c`
(0 when no row leads in `c`). -/
def lastAssignedValue (R : Mat) (n c : ℕ) : ℚ :=
  match ((List.range (pivotColsOf R n).length).filter
      (fun i => decide ((pivotColsOf R n).getD i 0 = c))).getLast? with
  | some i => getv (getm R i) n
  | none => 0

/-! ## Helper lemmas -/

/-- Unfold `|x|` to a sign case split, so that concrete runs of the
algorithms can be evaluated by `simp`/`norm_num`. -/
theorem abs_eq_ite (x : ℚ) : |x| = if 0 ≤ x then x else -x := by
  split
  · exact abs_of_nonneg ‹_›
  · exact abs_of_neg (lt_of_not_le ‹_›)

/-- Reading an entry of a map over `List.range`. -/
theorem getD_map_range {α : Type} (f : ℕ → α) (n i : ℕ) (d : α) (h : i < n) :
    ((List.range n).map f).getD i d = f i := by
  have hlen : i < ((List.range n).map f).length := by simpa using h
  rw [List.getD_eq_getElem _ _ hlen]
  simp

/-- `tol` is positive. -/
theorem tol_pos : 0 < tol := by norm_num [tol]

/-- Writing back the value already stored at an index is a no-op. -/
theorem set_getD_self {α : Type} : ∀ (l : List α) (i : ℕ) (d : α),
    l.set i (l.getD i d) = l
  | [], _, _ => by simp
  | x :: xs, 0, d => by simp
  | x :: xs, i + 1, d => by
    simp only [List.getD_cons_succ, List.set_cons_succ, List.cons.injEq, true_and]
    exact set_getD_self xs i d

/-- Swapping a row with itself is a no-op. -/
theorem swapRows_self (m : Mat) (i : ℕ) : swapRows m i i = m := by
  simp only [swapRows, getm]
  rw [set_getD_self, set_getD_self]

/-- Dividing a row by pivot 1 is a no-op. -/
theorem scaleRow_one (r : List ℚ) : scaleRow r 1 = r := by
  simp [scaleRow]

/-- A fold simulates another along a projection that commutes with the
step functions. -/
theorem foldl_sim {α β γ : Type} (π : α → β) (f : α → γ → α) (g : β → γ → β)
    (h : ∀ a x, π (f a x) = g (π a) x) :
    ∀ (l : List γ) (a : α), π (l.foldl f a) = l.foldl g (π a)
  | [], a => rfl
  | x :: xs, a => by
    rw [List.foldl_cons, List.foldl_cons, foldl_sim π f g h xs (f a x), h]

/-- An indexed accumulation loop is a `Finset.range` sum. -/
theorem foldl_add_eq_sum (f : ℕ → ℚ) : ∀ (n : ℕ) (init : ℚ),
    (List.range n).foldl (fun acc k => acc + f k) init = init + ∑ k in Finset.range n, f k
  | 0, init => by simp
  | n + 1, init => by
    rw [List.range_succ, List.foldl_append, foldl_add_eq_sum f n init,
      Finset.sum_range_succ]
    simp [add_assoc]

/-- The first row of a nonempty rectangular matrix has the common width. -/
theorem getm_zero_length {m : Mat} {n : ℕ} (hm : m.length = n) (h1 : 1 ≤ n)
    (hrows : ∀ r ∈ m, r.length = n) : (getm m 0).length = n := by
  have h0 : 0 < m.length := by omega
  have : getm m 0 ∈ m := by
    simp only [getm, List.getD_eq_getElem _ _ h0]
    exact List.getElem_mem _
  exact hrows _ this

/-- Any row of a nonempty rectangular matrix has the common width. -/
theorem getm_length {m : Mat} {n : ℕ} (hm : m.length = n)
    (hrows : ∀ r ∈ m, r.length = n) {i : ℕ} (hi : i < n) : (getm m i).length = n := by
  have h0 : i < m.length := by omega
  have : getm m i ∈ m := by
    simp only [getm, List.getD_eq_getElem _ _ h0]
    exact List.getElem_mem _
  exact hrows _ this

/-- `multVal` has one row per row of its left factor. -/
theorem multVal_length (a b : Mat) : (multVal a b).length = a.length := by
  simp [multVal]

/-- All rows of `multVal a b` have the width of `b`'s first row. -/
theorem multVal_rows (a b : Mat) : ∀ r ∈ multVal a b, r.length = (getm b 0).length := by
  intro r hr
  simp only [multVal, List.mem_map] at hr
  obtain ⟨i, _, rfl⟩ := hr
  simp

/-- Entry-level description of `multVal` on square data. -/
theorem toFin_multVal {a b : Mat} {n : ℕ} (ha : a.length = n)
    (ha0 : (getm a 0).length = n) (hb0 : (getm b 0).length = n) :
    toFin (multVal a b) n = toFin a n * toFin b n := by
  funext i j
  have hi : (i : ℕ) < n := i.isLt
  have hj : (j : ℕ) < n := j.isLt
  simp only [toFin, Matrix.mul_apply]
  rw [show getm (multVal a b) i = (List.range (getm b 0).length).map
      (fun j => (List.range (getm a 0).length).foldl
        (fun acc k => acc + getv (getm a i) k * getv (getm b k) j) 0) from ?_]
  · rw [show getv ((List.range (getm b 0).length).map
        (fun j => (List.range (getm a 0).length).foldl
          (fun acc k => acc + getv (getm a i) k * getv (getm b k) j) 0)) j
        = (List.range (getm a 0).length).foldl
          (fun acc k => acc + getv (getm a i) k * getv (getm b k) j) 0 from ?_]
    · rw [ha0, foldl_add_eq_sum, zero_add,
        Fin.sum_univ_eq_sum_range (fun k => getv (getm a i) k * getv (getm b k) j)]
    · exact getD_map_range _ _ _ _ (by omega)
  · exact getD_map_range _ _ _ _ (by omega)

/-- The entry-wise identity matrix denotes Mathlib's `1`. -/
theorem toFin_identityMatrix (n : ℕ) : toFin (identityMatrix n) n = 1 := by
  funext i j
  simp only [toFin, identityMatrix, getm, getv]
  rw [show (((List.range n).map (fun i => (List.range n).map
      (fun j => if i = j then (1:ℚ) else 0))).getD i []) = (List.range n).map
      (fun j => if (i:ℕ) = j then (1:ℚ) else 0) from getD_map_range _ _ _ _ i.isLt]
  rw [show ((List.range n).map (fun j => if (i:ℕ) = j then (1:ℚ) else 0)).getD j 0
      = if (i:ℕ) = (j:ℕ) then (1:ℚ) else 0 from getD_map_range _ _ _ _ j.isLt]
  rw [Matrix.one_apply]
  simp [Fin.ext_iff]

/-- `identityMatrix n` has `n` rows of width `n`. -/
theorem identityMatrix_length (n : ℕ) :
    (identityMatrix n).length = n ∧ ∀ r ∈ identityMatrix n, r.length = n := by
  constructor
  · simp [identityMatrix]
  · intro r hr
    simp only [identityMatrix, List.mem_map] at hr
    obtain ⟨i, _, rfl⟩ := hr
    simp

/-- The repeated-multiplication loop of `matrixPower`: after `k`
multiplications by a square `A` starting from a square `R`, the loop
succeeds and denotes `R * A^k`. -/
theorem power_fold {A : Mat} {n : ℕ} (hA : A.length = n) (hA0 : (getm A 0).length = n)
    (_hArows : ∀ r ∈ A, r.length = n) (h1 : 1 ≤ n) :
    ∀ (k : ℕ) (R : Mat), R.length = n → (∀ r ∈ R, r.length = n) →
    ∃ M, (List.range k).foldlM (fun res _ => multiplyMatrices res A) R = .ok M
      ∧ M.length = n ∧ (∀ r ∈ M, r.length = n)
      ∧ toFin M n = toFin R n * (toFin A n) ^ k := by
  intro k
  induction k with
  | zero =>
    intro R hR hRrows
    exact ⟨R, rfl, hR, hRrows, by simp⟩
  | succ k ih =>
    intro R hR hRrows
    obtain ⟨M, hM, hMlen, hMrows, hMfin⟩ := ih R hR hRrows
    have hM0 : (getm M 0).length = n := getm_zero_length hMlen h1 hMrows
    have hguard : ¬ (getm M 0).length ≠ A.length := by omega
    refine ⟨multVal M A, ?_, ?_, ?_, ?_⟩
    · rw [List.range_succ, List.foldlM_append, hM]
      have heq : (getm M 0).length = A.length := by omega
      show Except.bind (Except.ok M) _ = _
      rw [Except.bind]
      simp [multiplyMatrices, heq]
    · rw [multVal_length, hMlen]
    · intro r hr
      have := multVal_rows M A r hr
      omega
    · rw [toFin_multVal hMlen hM0 hA0, hMfin, pow_succ, mul_assoc]

/-! ## Claim C2: sub-tolerance pivots during Gauss–Jordan inversion -/

/-- C2, counterexample.  For `A = diag(1e-11, 1e11, 1)` (determinant 1,
so the singularity guard passes), the Gauss–Jordan elimination inside
`inverse` meets a pivot candidate of magnitude `1e-11 < 1e-10` in column
0, silently skips that column (`continue`), and `inverse` still returns a
matrix — and a wrong one: the true inverse has `1e11` in its corner.
This refutes the claim that a sub-tolerance pivot candidate makes
`inverse` fail with a Singular error. -/
theorem C2_skipped_pivot_counterexample :
    inverseSkipsPivot [[1/10^11, 0, 0], [0, 10^11, 0], [0, 0, 1]] = true
    ∧ inverse [[1/10^11, 0, 0], [0, 10^11, 0], [0, 0, 1]]
        = .ok [[1, 0, 0], [0, 1/10^11, 0], [0, 0, 1]] := by
  constructor
  · norm_num [inverseSkipsPivot, gaussJordanAux, gjStep, augmentIdentity, findPivotRow,
      swapRows, scaleRow, elimRow, getm, getv, tol, List.range_succ, abs_eq_ite]
  · have hdet : detVal [[1/10^11, 0, 0], [0, 10^11, 0], [0, 0, 1]] = 1 := by
      norm_num [detVal, detValAux, minorM, getm, getv, List.range_succ]
    have hgj : gaussJordan (augmentIdentity [[1/10^11, 0, 0], [0, 10^11, 0], [0, 0, 1]])
        = [[1/10^11, 0, 0, 1, 0, 0], [0, 1, 0, 0, 1/10^11, 0], [0, 0, 1, 0, 0, 1]] := by
      norm_num [gaussJordan, gaussJordanAux, gjStep, augmentIdentity, findPivotRow,
        swapRows, scaleRow, elimRow, getm, getv, tol, List.range_succ, abs_eq_ite]
    simp only [inverse, hdet, hgj]
    norm_num [getm, getv, tol, List.range_succ]

/-- C2, amended.  For every square matrix with more than 2 rows,
`inverse` fails with the Singular error exactly when `|det| < 1e-10`;
whenever the determinant guard passes, `inverse` returns a matrix even if
a pivot candidate inside Gauss–Jordan falls below the tolerance (such a
column is skipped silently rather than reported). -/
theorem C2_inverse_singular_iff (A : Mat) (hn : 2 < A.length)
    (hsq : A.length = (getm A 0).length) :
    (inverse A = .error .singular ↔ |detVal A| < tol)
    ∧ (¬ |detVal A| < tol → ∃ B, inverse A = .ok B) := by
  have hne : A.length ≠ 2 := by omega
  constructor
  · constructor
    · intro h
      by_contra hdet
      simp only [inverse, if_neg (by omega : ¬ A.length ≠ (getm A 0).length),
        if_neg hdet, if_neg hne] at h
      exact Except.noConfusion h
    · intro hdet
      simp only [inverse, if_neg (by omega : ¬ A.length ≠ (getm A 0).length), if_pos hdet]
  · intro hdet
    simp only [inverse, if_neg (by omega : ¬ A.length ≠ (getm A 0).length),
      if_neg hdet, if_neg hne]
    exact ⟨_, rfl⟩

/-- C2, witness: the amended theorem applied to `diag(1e-11, 1e11, 1)`. -/
theorem C2_inverse_singular_iff_witness :
    ((inverse [[1/10^11, 0, 0], [0, 10^11, 0], [0, 0, 1]] = .error .singular
        ↔ |detVal [[1/10^11, 0, 0], [0, 10^11, 0], [0, 0, 1]]| < tol)
      ∧ (¬ |detVal [[1/10^11, 0, 0], [0, 10^11, 0], [0, 0, 1]]| < tol →
          ∃ B, inverse [[1/10^11, 0, 0], [0, 10^11, 0], [0, 0, 1]] = .ok B)) :=
  C2_inverse_singular_iff [[1/10^11, 0, 0], [0, 10^11, 0], [0, 0, 1]]
    (by norm_num) (by norm_num [getm])

/-- Reading an entry of a map (in-range). -/
theorem getD_map {α β : Type} (f : α → β) (l : List α) (a : ℕ) (d : β)
    (h : a < l.length) : (l.map f).getD a d = f l[a] := by
  have hlen : a < (l.map f).length := by simpa using h
  rw [List.getD_eq_getElem _ _ hlen]
  simp

/-- Entry `j` of a row with index `i` erased: entries left of `i` keep
their position, entries right of it shift down by one. -/
theorem getD_eraseIdx (l : List ℚ) : ∀ (i j : ℕ), i < l.length → j < l.length - 1 →
    (l.eraseIdx i).getD j 0 = if j < i then l.getD j 0 else l.getD (j + 1) 0 := by
  induction l with
  | nil => intro i j hi _; simp at hi
  | cons x xs ih =>
    intro i j hi hj
    match i with
    | 0 => simp [List.eraseIdx]
    | i' + 1 =>
      match j with
      | 0 => simp [List.eraseIdx]
      | j' + 1 =>
        simp only [List.eraseIdx, List.getD_cons_succ]
        rw [ih i' j' (by simpa using hi) (by simp at hj; omega)]
        simp only [Nat.add_lt_add_iff_right]

/-- The minor has one row fewer. -/
theorem minorM_length (m : Mat) (i : ℕ) : (minorM m i).length = m.length - 1 := by
  simp [minorM]

/-- Rows of the minor of a square matrix are one entry shorter. -/
theorem minorM_rows {m : Mat} {n : ℕ} (hrows : ∀ r ∈ m, r.length = n) {i : ℕ}
    (hi : i < n) : ∀ r ∈ minorM m i, r.length = n - 1 := by
  intro r hr
  simp only [minorM, List.mem_map] at hr
  obtain ⟨row, hrow, rfl⟩ := hr
  have := hrows row (List.mem_of_mem_drop hrow)
  rw [List.length_eraseIdx]
  simp [this, hi]

/-- A row of the minor is the corresponding later row with entry `i` erased. -/
theorem getm_minorM {m : Mat} (i a : ℕ) (ha : a < m.length - 1) :
    getm (minorM m i) a = (getm m (a + 1)).eraseIdx i := by
  have ha' : a < (m.drop 1).length := by simp; omega
  simp only [minorM, getm]
  rw [getD_map _ _ _ _ ha', List.getElem_drop]
  congr 1
  rw [List.getD_eq_getElem _ _ (by omega : a + 1 < m.length)]
  congr 1
  omega

/-- The value of `succAbove` as a natural number. -/
theorem val_succAbove {n : ℕ} (p : Fin (n + 1)) (b : Fin n) :
    ((p.succAbove b : Fin (n + 1)) : ℕ) = if (b : ℕ) < (p : ℕ) then (b : ℕ) else b + 1 := by
  rw [Fin.succAbove]
  by_cases h : (b : ℕ) < (p : ℕ)
  · rw [if_pos (show Fin.castSucc b < p by simpa [Fin.lt_def]), if_pos h]
    rfl
  · rw [if_neg (show ¬ Fin.castSucc b < p by
        simp only [Fin.lt_def, Fin.coe_castSucc]; omega), if_neg h]
    rfl

/-- The list-level minor denotes Mathlib's row/column-deleted submatrix. -/
theorem toFin_minorM {m : Mat} {n : ℕ} (hm : m.length = n + 1)
    (hrows : ∀ r ∈ m, r.length = n + 1) (j : Fin (n + 1)) :
    toFin (minorM m j) n = (toFin m (n + 1)).submatrix Fin.succ j.succAbove := by
  funext a b
  simp only [toFin, Matrix.submatrix_apply]
  rw [getm_minorM _ _ (by omega : (a : ℕ) < m.length - 1)]
  have hrowlen : (getm m ((a : ℕ) + 1)).length = n + 1 :=
    getm_length hm hrows (by omega)
  simp only [getv]
  rw [getD_eraseIdx _ _ _ (by omega) (by omega)]
  rw [show ((Fin.succ a : Fin (n + 1)) : ℕ) = (a : ℕ) + 1 from rfl]
  rw [val_succAbove]
  split <;> rfl

/-- The cofactor recursion denotes Mathlib's determinant, for any fuel at
least the (positive) size. -/
theorem detValAux_spec : ∀ (fuel n : ℕ) (m : Mat), m.length = n →
    (∀ r ∈ m, r.length = n) → 1 ≤ n → n ≤ fuel →
    detValAux fuel m = (toFin m n).det := by
  intro fuel
  induction fuel with
  | zero => intro n m _ _ h1 hle; omega
  | succ fuel ih =>
    intro n m hm hrows h1 hle
    match n, h1 with
    | 1, _ =>
      rw [show detValAux (fuel + 1) m = getv (getm m 0) 0 by
        simp [detValAux, hm]]
      rw [Matrix.det_fin_one]
      rfl
    | 2, _ =>
      rw [show detValAux (fuel + 1) m = getv (getm m 0) 0 * getv (getm m 1) 1
          - getv (getm m 0) 1 * getv (getm m 1) 0 by simp [detValAux, hm]]
      rw [Matrix.det_fin_two]
      rfl
    | (k + 3), _ =>
      have hexp : detValAux (fuel + 1) m
          = ∑ i in Finset.range (k + 3),
              getv (getm m 0) i * (-1 : ℚ) ^ i * detValAux fuel (minorM m i) := by
        simp only [detValAux]
        rw [if_neg (by omega), if_neg (by omega), hm, foldl_add_eq_sum, zero_add]
      rw [hexp, Matrix.det_succ_row_zero,
        ← Fin.sum_univ_eq_sum_range
          (fun i => getv (getm m 0) i * (-1 : ℚ) ^ i * detValAux fuel (minorM m i)) (k + 3)]
      refine Finset.sum_congr rfl fun j _ => ?_
      have hmin : detValAux fuel (minorM m (j : ℕ)) = (toFin (minorM m (j : ℕ)) (k + 2)).det := by
        refine ih (k + 2) _ ?_ ?_ (by omega) (by omega)
        · rw [minorM_length, hm]
          omega
        · intro r hr
          have := minorM_rows hrows (show (j : ℕ) < k + 3 from j.isLt) r hr
          omega
      rw [hmin, show toFin (minorM m (j : ℕ)) (k + 2)
          = (toFin m (k + 3)).submatrix Fin.succ j.succAbove
        from toFin_minorM (n := k + 2) hm hrows j]
      rw [show toFin m (k + 3) 0 j = getv (getm m 0) (j : ℕ) from rfl]
      ring

/-- `detVal` of a square matrix denotes Mathlib's determinant. -/
theorem detVal_eq_det {m : Mat} {n : ℕ} (hm : m.length = n)
    (hrows : ∀ r ∈ m, r.length = n) (h1 : 1 ≤ n) : detVal m = (toFin m n).det := by
  rw [detVal, hm]
  exact detValAux_spec n n m hm hrows h1 le_rfl

/-- `transpose` has one row per column. -/
theorem transpose_length (m : Mat) : (transpose m).length = (getm m 0).length := by
  simp [transpose]

/-- Each row of `transpose` has one entry per row of the input. -/
theorem transpose_rows (m : Mat) : ∀ r ∈ transpose m, r.length = m.length := by
  intro r hr
  simp only [transpose, List.mem_map] at hr
  obtain ⟨c, _, rfl⟩ := hr
  simp

/-- The list-level transpose denotes Mathlib's transpose on square data. -/
theorem toFin_transpose {m : Mat} {n : ℕ} (hm : m.length = n)
    (h0 : (getm m 0).length = n) : toFin (transpose m) n = (toFin m n).transpose := by
  funext i j
  simp only [toFin, Matrix.transpose_apply]
  rw [show getm (transpose m) i = m.map (fun row => getv row (i : ℕ)) by
    have hi : (i : ℕ) < (getm m 0).length := by rw [h0]; exact i.isLt
    simp only [transpose, getm] at hi ⊢
    exact getD_map_range _ _ _ _ hi]
  have hj : (j : ℕ) < m.length := by rw [hm]; exact j.isLt
  simp only [getv]
  rw [getD_map _ _ _ _ hj]
  rw [show getm m (j : ℕ) = m[(j : ℕ)] from List.getD_eq_getElem _ _ hj]

/-- Folding `+ g x` over a list is adding the sum of the mapped list. -/
theorem foldl_add_map_sum {α : Type} (g : α → ℝ) : ∀ (l : List α) (init : ℝ),
    l.foldl (fun s x => s + g x) init = init + (l.map g).sum
  | [], init => by simp
  | x :: xs, init => by
    rw [List.foldl_cons, foldl_add_map_sum g xs (init + g x)]
    simp [add_assoc]

/-- Indexed reads over the whole index range are just the list itself. -/
theorem map_range_getD (g : ℝ → ℝ) : ∀ (l : List ℝ),
    (List.range l.length).map (fun i => g (l.getD i 0)) = l.map g
  | [] => by simp
  | x :: xs => by
    rw [show (x :: xs).length = xs.length + 1 from rfl, List.range_succ_eq_map]
    simp only [List.map_cons, List.map_map]
    rw [show ((fun i => g ((x :: xs).getD i 0)) ∘ Nat.succ)
        = (fun i => g (xs.getD i 0)) from rfl]
    rw [map_range_getD g xs]
    rfl

/-- The dot product of a vector with itself is its sum of squares. -/
theorem dotVal_self (a : List ℝ) : dotVal a a = sumSq a := by
  rw [dotVal, sumSq, foldl_add_map_sum (fun i => a.getD i 0 * a.getD i 0),
    foldl_add_map_sum (fun x => x * x), zero_add, zero_add,
    map_range_getD (fun x => x * x) a]

/-- Sums of squares are nonnegative. -/
theorem sumSq_nonneg (v : List ℝ) : 0 ≤ sumSq v := by
  rw [sumSq, foldl_add_map_sum (fun x => x * x), zero_add]
  apply List.sum_nonneg
  intro x hx
  rw [List.mem_map] at hx
  obtain ⟨y, _, rfl⟩ := hx
  exact mul_self_nonneg y

/-- The squared magnitude is the sum of squares. -/
theorem mag_mul_self (v : List ℝ) :
    vectorMagnitude v * vectorMagnitude v = sumSq v :=
  Real.mul_self_sqrt (sumSq_nonneg v)

/-! ## Claim C9: angle computation safety -/

/-- C9, confirmed.  For equal-length vectors: when both magnitudes are
nonzero, `angleBetweenVectors` succeeds with `arccos` of the cosine
clamped into `[-1, 1]` (so the value handed to `arccos` can never leave
the domain); the angle of a nonzero vector with itself is exactly 0; and
a zero-magnitude operand yields the degenerate-input error. -/
theorem C9_angle_safety (a b : List ℝ) (hlen : a.length = b.length) :
    (vectorMagnitude a ≠ 0 → vectorMagnitude b ≠ 0 →
      angleBetweenVectors a b = .ok (Real.arccos (max (-1)
          (min 1 (dotVal a b / (vectorMagnitude a * vectorMagnitude b)))))
        ∧ -1 ≤ max (-1) (min 1 (dotVal a b / (vectorMagnitude a * vectorMagnitude b)))
        ∧ max (-1) (min 1 (dotVal a b / (vectorMagnitude a * vectorMagnitude b))) ≤ 1)
    ∧ (vectorMagnitude a ≠ 0 → angleBetweenVectors a a = .ok 0)
    ∧ ((vectorMagnitude a = 0 ∨ vectorMagnitude b = 0) →
        angleBetweenVectors a b = .error .degenerateInput) := by
  refine ⟨?_, ?_, ?_⟩
  · intro hA hB
    refine ⟨?_, le_max_left _ _, max_le (by norm_num) (min_le_left _ _)⟩
    simp only [angleBetweenVectors, dotProduct, if_neg (show ¬ a.length ≠ b.length by omega)]
    rw [if_neg (by push_neg; exact ⟨hA, hB⟩)]
  · intro hA
    have hS : sumSq a ≠ 0 := by
      intro h
      apply hA
      rw [vectorMagnitude, h, Real.sqrt_zero]
    simp only [angleBetweenVectors, dotProduct, if_neg (show ¬ a.length ≠ a.length by omega)]
    rw [if_neg (by push_neg; exact ⟨hA, hA⟩)]
    rw [dotVal_self, mag_mul_self, div_self hS]
    rw [min_self, max_eq_right (by norm_num : (-1 : ℝ) ≤ 1), Real.arccos_one]
  · intro h
    simp only [angleBetweenVectors, dotProduct, if_neg (show ¬ a.length ≠ b.length by omega)]
    rw [if_pos h]

/-- C9, witness: the angle of `[1]` with itself is exactly 0. -/
theorem C9_angle_safety_witness :
    vectorMagnitude [(1 : ℝ)] ≠ 0 ∧ angleBetweenVectors [(1 : ℝ)] [(1 : ℝ)] = .ok 0 := by
  have hmag : vectorMagnitude [(1 : ℝ)] = 1 := by
    simp [vectorMagnitude, sumSq]
  have h1 : vectorMagnitude [(1 : ℝ)] ≠ 0 := by rw [hmag]; norm_num
  exact ⟨h1, (C9_angle_safety [(1 : ℝ)] [(1 : ℝ)] rfl).2.1 h1⟩

/-! ## Claim C1: solver classification -/

/-- Reading the entry just overwritten. -/
theorem getD_set_self (l : List ℚ) (i : ℕ) (x : ℚ) (h : i < l.length) :
    (l.set i x).getD i 0 = x := by
  rw [List.getD_eq_getElem _ _ (by simpa using h)]
  exact List.getElem_set_self _

/-- Reading an entry other than the one just overwritten. -/
theorem getD_set_ne (l : List ℚ) {i j : ℕ} (x : ℚ) (h : i ≠ j) :
    (l.set i x).getD j 0 = l.getD j 0 := by
  rw [List.getD_eq_getElem?_getD, List.getD_eq_getElem?_getD, List.getElem?_set_ne h]

/-- `getLast?` skips a head when the tail is nonempty. -/
theorem getLast?_cons_of_ne_nil {α : Type} (a : α) {l : List α} (h : l ≠ []) :
    (a :: l).getLast? = l.getLast? := by
  cases l with
  | nil => exact absurd rfl h
  | cons b t => exact List.getLast?_cons_cons

/-- Replicated zeros read zero everywhere. -/
theorem getD_replicate_zero (n c : ℕ) : (List.replicate n (0 : ℚ)).getD c 0 = 0 := by
  by_cases h : c < n
  · rw [List.getD_eq_getElem _ _ (by simpa using h)]
    exact List.getElem_replicate _ _
  · rw [List.getD_eq_default]
    simpa using h

/-- The assignment loop `solution[cols[i]] = R[i][n]`, characterised: the
final value at position `c` is the value written by the last index whose
target column is `c`, or the initial value when none writes there. -/
theorem assemble_aux (R : Mat) (cols : List ℕ) (n c : ℕ) :
    ∀ (l : List ℕ) (init : List ℚ), (∀ i ∈ l, cols.getD i 0 < init.length) →
    ((l.foldl (fun sol i => sol.set (cols.getD i 0) (getv (getm R i) n)) init).getD c 0)
      = match (l.filter (fun i => decide (cols.getD i 0 = c))).getLast? with
        | some i => getv (getm R i) n
        | none => init.getD c 0
  | [], init, _ => by simp
  | x :: xs, init, hp => by
    rw [List.foldl_cons,
      assemble_aux R cols n c xs (init.set (cols.getD x 0) (getv (getm R x) n))
        (fun i hi => by rw [List.length_set]; exact hp i (List.mem_cons_of_mem _ hi)),
      List.filter_cons]
    by_cases hq : cols.getD x 0 = c
    · rw [if_pos (by simpa using hq)]
      cases hfx : (xs.filter (fun i => decide (cols.getD i 0 = c))).getLast? with
      | some i =>
        rw [getLast?_cons_of_ne_nil _ (fun hnil => by rw [hnil] at hfx; simp at hfx), hfx]
      | none =>
        rw [List.getLast?_eq_none_iff] at hfx
        rw [hfx, List.getLast?_singleton]
        show (init.set (cols.getD x 0) (getv (getm R x) n)).getD c 0 = getv (getm R x) n
        rw [← hq]
        exact getD_set_self init _ _ (hp x (by simp))
    · rw [if_neg (by simpa using hq)]
      cases hfx : (xs.filter (fun i => decide (cols.getD i 0 = c))).getLast? with
      | some i => rfl
      | none => exact getD_set_ne init _ hq

/-- Every recorded pivot column is one of the `n` coefficient columns. -/
theorem pivotColsOf_lt (R : Mat) (n : ℕ) : ∀ x ∈ pivotColsOf R n, x < n := by
  intro x hx
  rw [pivotColsOf, List.mem_filterMap] at hx
  obtain ⟨i, _, hfind⟩ := hx
  rw [leadCol] at hfind
  simpa using List.mem_of_find?_eq_some hfind

/-- The assembled unique solution, characterised variable by variable. -/
theorem assembleSolution_getD (R : Mat) (n c : ℕ) :
    (assembleSolution R (pivotColsOf R n) n).getD c 0 = lastAssignedValue R n c := by
  rw [assembleSolution,
    assemble_aux R (pivotColsOf R n) n c (List.range (pivotColsOf R n).length)
      (List.replicate n 0) ?_, lastAssignedValue]
  · cases ((List.range (pivotColsOf R n).length).filter
        (fun i => decide ((pivotColsOf R n).getD i 0 = c))).getLast? with
    | some i => rfl
    | none => exact getD_replicate_zero n c
  · intro i hi
    rw [List.mem_range] at hi
    rw [List.length_replicate,
      List.getD_eq_getElem _ _ (by simpa using hi)]
    exact pivotColsOf_lt R n _ (List.getElem_mem _)

/-- C1, counterexample.  For `A = [[1, 0], [1e-10, 2e-10]]`,
`b = [1, 4e-10]`, the tolerance-skipped elimination leaves the RREF of
`[A|b]` as `[[1, 0, 1], [1/2, 1, 2]]`: both rows lead in column 0, the
pivot count equals `n = 2`, and the assignment loop writes column 0 twice
— so the reported unique solution sets variable 0 to `2` (the last row's
augmented entry), while row 0 is a pivot row with leading column 0 whose
augmented entry is `1`.  The claim's "each pivot column's variable set to
that pivot row's augmented entry" therefore fails for row 0. -/
theorem C1_pivot_value_counterexample :
    solveByRREF [[1, 0], [1/10^10, 2/10^10]] [1, 4/10^10] = .unique [2, 0]
    ∧ (getm (rref (augmentVec [[1, 0], [1/10^10, 2/10^10]] [1, 4/10^10])) 0).length - 1 = 2
    ∧ leadCol (getm (rref (augmentVec [[1, 0], [1/10^10, 2/10^10]] [1, 4/10^10])) 0) 2
        = some 0
    ∧ getv (getm (rref (augmentVec [[1, 0], [1/10^10, 2/10^10]] [1, 4/10^10])) 0) 2 = 1
    ∧ ([(2 : ℚ), 0].getD 0 0 ≠ 1) := by
  have h : rref (augmentVec [[1, 0], [1/10^10, 2/10^10]] [1, 4/10^10])
      = [[1, 0, 1], [1/2, 1, 2]] := by
    norm_num [augmentVec, rref, rrefStep, rrefElimFold, findPivotRow, swapRows, scaleRow,
      elimRow, getm, getv, tol, List.range_succ, abs_eq_ite]
  refine ⟨?_, ?_, ?_, ?_, by norm_num⟩
  · simp only [solveByRREF, h]
    norm_num [isContradictionRow, pivotColsOf, leadCol, assembleSolution,
      getm, getv, tol, List.range_succ, abs_eq_ite, List.find?, List.filterMap,
      List.replicate]
  · rw [h]; rfl
  · rw [h]
    norm_num [leadCol, getm, getv, tol, List.range_succ, List.find?, abs_eq_ite]
  · rw [h]; rfl

/-- C1, amended.  The RREF solver classifies exactly as claimed —
contradiction row ⇒ `none`; otherwise pivot count = `n` ⇒ `unique`, and
pivot count ≠ `n` ⇒ `infinite` reporting `n − pivotCount` free variables
— but in the `unique` case a variable's value is the augmented entry of
the LAST scanned row whose leading column is that variable (rows are
scanned in order and later assignments overwrite earlier ones when
leading columns collide; variables in whose column no row leads stay 0).
When all leading columns are distinct this coincides with the claim's
"that pivot row's augmented entry". -/
theorem C1_solver_classification (A : Mat) (b : List ℚ) :
    ((∃ i, i < (rref (augmentVec A b)).length
        ∧ isContradictionRow (getm (rref (augmentVec A b)) i)
            ((getm (rref (augmentVec A b)) 0).length - 1) = true) →
      solveByRREF A b = .noSolution)
    ∧ ((∀ i, i < (rref (augmentVec A b)).length →
          isContradictionRow (getm (rref (augmentVec A b)) i)
            ((getm (rref (augmentVec A b)) 0).length - 1) = false) →
        (pivotColsOf (rref (augmentVec A b))
            ((getm (rref (augmentVec A b)) 0).length - 1)).length
          = (getm (rref (augmentVec A b)) 0).length - 1 →
        solveByRREF A b = .unique (assembleSolution (rref (augmentVec A b))
            (pivotColsOf (rref (augmentVec A b))
              ((getm (rref (augmentVec A b)) 0).length - 1))
            ((getm (rref (augmentVec A b)) 0).length - 1))
          ∧ ∀ c, (assembleSolution (rref (augmentVec A b))
              (pivotColsOf (rref (augmentVec A b))
                ((getm (rref (augmentVec A b)) 0).length - 1))
              ((getm (rref (augmentVec A b)) 0).length - 1)).getD c 0
            = lastAssignedValue (rref (augmentVec A b))
                ((getm (rref (augmentVec A b)) 0).length - 1) c)
    ∧ ((∀ i, i < (rref (augmentVec A b)).length →
          isContradictionRow (getm (rref (augmentVec A b)) i)
            ((getm (rref (augmentVec A b)) 0).length - 1) = false) →
        (pivotColsOf (rref (augmentVec A b))
            ((getm (rref (augmentVec A b)) 0).length - 1)).length
          ≠ (getm (rref (augmentVec A b)) 0).length - 1 →
        solveByRREF A b = .infinite
          (((((getm (rref (augmentVec A b)) 0).length - 1 : ℕ)) : ℤ)
            - (pivotColsOf (rref (augmentVec A b))
                ((getm (rref (augmentVec A b)) 0).length - 1)).length)) := by
  refine ⟨?_, ?_, ?_⟩
  · rintro ⟨i, hi, hci⟩
    simp only [solveByRREF]
    split
    · rfl
    · rename_i heq
      rw [List.find?_eq_none] at heq
      have := heq i (by simpa using hi)
      rw [hci] at this
      simp at this
  · intro hno hcount
    constructor
    · simp only [solveByRREF]
      split
      · rename_i j heq
        have hj : j < (rref (augmentVec A b)).length := by
          simpa using List.mem_of_find?_eq_some heq
        have := List.find?_some heq
        rw [hno j hj] at this
        simp at this
      · rw [if_pos hcount]
    · intro c
      exact assembleSolution_getD _ _ c
  · intro hno hcount
    simp only [solveByRREF]
    split
    · rename_i j heq
      have hj : j < (rref (augmentVec A b)).length := by
        simpa using List.mem_of_find?_eq_some heq
      have := List.find?_some heq
      rw [hno j hj] at this
      simp at this
    · rw [if_neg hcount]

/-- C1, witness: the spec's inconsistent example `[[1,1],[1,1]]x=[2,3]`
is classified `none`. -/
theorem C1_solver_classification_witness :
    solveByRREF [[1, 1], [1, 1]] [2, 3] = .noSolution := by
  have h : rref (augmentVec [[1, 1], [1, 1]] [2, 3]) = [[1, 1, 0], [0, 0, 1]] := by
    norm_num [augmentVec, rref, rrefStep, rrefElimFold, findPivotRow, swapRows, scaleRow,
      elimRow, getm, getv, tol, List.range_succ, abs_eq_ite]
  refine (C1_solver_classification [[1, 1], [1, 1]] [2, 3]).1 ⟨1, ?_, ?_⟩
  · rw [h]
    norm_num
  · rw [h]
    norm_num [isContradictionRow, getm, getv, tol, abs_eq_ite]

/-! ## Claim C5: idempotence of `rref` -/

/-- Dropping from `range'` shifts the start. -/
theorem drop_range' : ∀ (len s k : ℕ),
    (List.range' s len).drop k = List.range' (s + k) (len - k)
  | 0, s, k => by simp
  | len + 1, s, 0 => by simp
  | len + 1, s, k + 1 => by
    rw [List.range'_succ, List.drop_succ_cons, drop_range' len (s + 1) k]
    congr 1 <;> omega

/-- Dropping from `range` leaves a `range'` tail. -/
theorem drop_range (n k : ℕ) : (List.range n).drop k = List.range' k (n - k) := by
  rw [List.range_eq_range', drop_range' n 0 k]
  congr 1
  omega

/-- `find?` over `range'` returns the first index satisfying the
predicate. -/
theorem find?_range'_first (p : ℕ → Bool) : ∀ (len s c : ℕ),
    (List.range' s len).find? p = some c →
    s ≤ c ∧ c < s + len ∧ p c = true ∧ ∀ j, s ≤ j → j < c → p j = false
  | 0, s, c => by intro h; simp [List.find?] at h
  | len + 1, s, c => by
    intro h
    rw [List.range'_succ] at h
    by_cases hp : p s
    · rw [List.find?_cons_of_pos _ hp] at h
      obtain rfl : s = c := by injection h
      exact ⟨le_rfl, by omega, hp, fun j h1 h2 => absurd h1 (by omega)⟩
    · rw [List.find?_cons_of_neg _ hp] at h
      obtain ⟨h1, h2, h3, h4⟩ := find?_range'_first p len (s + 1) c h
      refine ⟨by omega, by omega, h3, fun j hj1 hj2 => ?_⟩
      rcases eq_or_lt_of_le hj1 with rfl | hj1'
      · exact Bool.not_eq_true _ ▸ (by simpa using hp)
      · exact h4 j (by omega) hj2

/-- A leading index points at the first nonzero entry: it is in range,
its entry is nonzero, and all earlier entries are zero. -/
theorem leadIdx_spec {row : List ℚ} {c : ℕ} (h : leadIdx row = some c) :
    c < row.length ∧ getv row c ≠ 0 ∧ ∀ j, j < c → getv row j = 0 := by
  rw [leadIdx, List.range_eq_range'] at h
  obtain ⟨h1, h2, h3, h4⟩ := find?_range'_first _ _ _ _ h
  refine ⟨by omega, by simpa using h3, fun j hj => ?_⟩
  have := h4 j (by omega) hj
  simpa using this

/-- A row with no leading index is entirely zero. -/
theorem leadIdx_none {row : List ℚ} (h : leadIdx row = none) :
    ∀ j, getv row j = 0 := by
  intro j
  by_cases hj : j < row.length
  · rw [leadIdx, List.find?_eq_none] at h
    have := h j (by simpa using hj)
    simpa using this
  · rw [getv, List.getD_eq_default]
    omega

/-- A fold that never changes its accumulator returns it unchanged. -/
theorem foldl_fixed {α β : Type} (f : α → β → α) (a : α) :
    ∀ (l : List β), (∀ x ∈ l, f a x = a) → l.foldl f a = a
  | [], _ => rfl
  | x :: xs, h => by
    rw [List.foldl_cons, h x (by simp)]
    exact foldl_fixed f a xs (fun y hy => h y (by simp [hy]))

/-- The pivot search stays put when no later candidate strictly beats the
starting row. -/
theorem findPivotRow_stays (m : Mat) (col start rows : ℕ)
    (h : ∀ i, start < i → i < rows →
      ¬ (|getv (getm m i) col| > |getv (getm m start) col|)) :
    findPivotRow m col start rows = start := by
  rw [findPivotRow]
  apply foldl_fixed
  intro i hi
  rw [drop_range] at hi
  rw [List.mem_range'] at hi
  obtain ⟨d, hd, rfl⟩ := hi
  rw [if_neg (h _ (by omega) (by omega))]

/-- One `rref` column step leaves an exact-RREF matrix unchanged and
moves the cursor exactly past the rows leading before the next column. -/
theorem rrefStep_fix {m : Mat} (hR : IsRREF m) (c r : ℕ) (inv : RrefCursorInv m c r) :
    ∃ r', rrefStep m.length (m, r) c = (m, r') ∧ RrefCursorInv m (c + 1) r' := by
  obtain ⟨hrle, hbelow, habove⟩ := inv
  obtain ⟨hrect, hzero, hone, hstair, hclear⟩ := hR
  by_cases hr : r < m.length
  · by_cases hc : ∃ i₀, i₀ < m.length ∧ leadIdx (getm m i₀) = some c
    · -- `c` is a leading column; its leading row must be the cursor row.
      obtain ⟨i₀, hi₀len, hi₀⟩ := hc
      have hrlead : ∃ Lr, leadIdx (getm m r) = some Lr := by
        cases hLr : leadIdx (getm m r) with
        | some L => exact ⟨L, rfl⟩
        | none =>
          exfalso
          have hi₀r : r ≤ i₀ := by
            by_contra hlt
            push_neg at hlt
            obtain ⟨L, hL, hLc⟩ := hbelow i₀ hlt
            rw [hi₀] at hL
            injection hL with hLL
            omega
          have := hzero r i₀ hi₀r hi₀len hLr
          rw [hi₀] at this
          exact Option.noConfusion this
      obtain ⟨Lr, hLr⟩ := hrlead
      have hLrc : Lr = c := by
        have hge : c ≤ Lr := habove r le_rfl hr _ hLr
        rcases eq_or_lt_of_le hge with h | h
        · omega
        · exfalso
          rcases lt_trichotomy i₀ r with hlt | heq | hgt
          · obtain ⟨L, hL, hLc⟩ := hbelow i₀ hlt
            rw [hi₀] at hL
            injection hL with e
            omega
          · rw [heq, hLr] at hi₀
            injection hi₀ with e
            omega
          · have := hstair r i₀ Lr c hgt hi₀len hLr hi₀
            omega
      subst hLrc
      have hrc1 : getv (getm m r) Lr = 1 := hone r Lr hr hLr
      have hothers : ∀ i', i' < m.length → i' ≠ r → getv (getm m i') Lr = 0 :=
        fun i' h1 h2 => hclear r Lr i' hr hLr h1 h2
      have hfind : findPivotRow m Lr r m.length = r := by
        apply findPivotRow_stays
        intro i h1 h2
        rw [hothers i h2 (by omega), hrc1]
        norm_num
      have helim : rrefElimFold m.length r Lr m = m := by
        rw [rrefElimFold]
        apply foldl_fixed
        intro i hi
        rw [List.mem_range] at hi
        by_cases hir : i = r
        · rw [if_neg (by simp [hir])]
        · rw [if_neg (by
            rw [hothers i hi hir]
            rintro ⟨-, habs⟩
            rw [abs_zero] at habs
            exact absurd habs (not_lt.mpr tol_pos.le))]
      refine ⟨r + 1, ?_, ?_, ?_, ?_⟩
      · simp only [rrefStep, hfind]
        rw [if_pos hr, if_neg (by rw [hrc1]; norm_num [tol]), swapRows_self, hrc1,
          scaleRow_one, show m.set r (getm m r) = m by
            simp only [getm]; exact set_getD_self _ _ _, helim]
      · omega
      · intro i hi
        rcases Nat.lt_succ_iff_lt_or_eq.mp hi with h | rfl
        · obtain ⟨L, hL, hLc⟩ := hbelow i h
          exact ⟨L, hL, by omega⟩
        · exact ⟨Lr, hLr, by omega⟩
      · intro i h1 h2 L hL
        have hge : Lr ≤ L := habove i (by omega) h2 L hL
        rcases eq_or_lt_of_le hge with h | h
        · exfalso
          have := hstair r i Lr L (by omega) h2 hLr hL
          omega
        · omega
    · -- no row leads in column `c`: every candidate entry is zero.
      push_neg at hc
      have hzeros : ∀ i, r ≤ i → i < m.length → getv (getm m i) c = 0 := by
        intro i h1 h2
        cases hL : leadIdx (getm m i) with
        | none => exact leadIdx_none hL c
        | some L =>
          have hge : c ≤ L := habove i h1 h2 L hL
          have hne : L ≠ c := fun h => hc i h2 (h ▸ hL)
          exact (leadIdx_spec hL).2.2 c (by omega)
      have hfind : findPivotRow m c r m.length = r := by
        apply findPivotRow_stays
        intro i h1 h2
        rw [hzeros i (by omega) h2, hzeros r le_rfl hr]
        simp
      refine ⟨r, ?_, ?_, ?_, ?_⟩
      · simp only [rrefStep, hfind]
        rw [if_pos hr, if_pos (by rw [hzeros r le_rfl hr]; simpa using tol_pos)]
      · exact hrle
      · intro i hi
        obtain ⟨L, hL, hLc⟩ := hbelow i hi
        exact ⟨L, hL, by omega⟩
      · intro i h1 h2 L hL
        have hge : c ≤ L := habove i h1 h2 L hL
        have hne : L ≠ c := fun h => hc i h2 (h ▸ hL)
        omega
  · refine ⟨r, by simp [rrefStep, hr], hrle, ?_, ?_⟩
    · intro i hi
      obtain ⟨L, hL, hLc⟩ := hbelow i hi
      exact ⟨L, hL, by omega⟩
    · intro i h1 h2 L hL
      omega

/-- Folding the column step over any column segment leaves an exact-RREF
matrix unchanged. -/
theorem rref_fix_aux {m : Mat} (hR : IsRREF m) : ∀ (len c r : ℕ),
    RrefCursorInv m c r →
    ∃ r', (List.range' c len).foldl (rrefStep m.length) (m, r) = (m, r')
      ∧ RrefCursorInv m (c + len) r'
  | 0, c, r, inv => ⟨r, by simp, by simpa using inv⟩
  | len + 1, c, r, inv => by
    obtain ⟨r1, h1, inv1⟩ := rrefStep_fix hR c r inv
    rw [List.range'_succ, List.foldl_cons, h1]
    obtain ⟨r', h', inv'⟩ := rref_fix_aux hR len (c + 1) r1 inv1
    refine ⟨r', h', ?_⟩
    rw [show c + (len + 1) = c + 1 + len by omega]
    exact inv'

/-- `rref` is the identity on matrices in exact reduced row-echelon
form. -/
theorem rref_fix {m : Mat} (hR : IsRREF m) : rref m = m := by
  have base : RrefCursorInv m 0 0 :=
    ⟨Nat.zero_le _, fun i hi => absurd hi (by omega), fun i _ _ L _ => Nat.zero_le L⟩
  obtain ⟨r', h', _⟩ := rref_fix_aux hR (getm m 0).length 0 0 base
  rw [rref, List.range_eq_range', h']

/-- C5, counterexample.  `A = [[1, 0], [1e-10, 2e-10]]`: the elimination
threshold leaves the `1e-10` entry alone in the first pass, the second
column's scaling turns it into `1/2`, so `rref(A) = [[1,0],[1/2,1]]` —
and a second application of `rref` then produces the identity matrix.
So `rref(rref(A)) ≠ rref(A)`. -/
theorem C5_idempotence_counterexample :
    rref (rref [[1, 0], [1/10^10, 2/10^10]]) ≠ rref [[1, 0], [1/10^10, 2/10^10]] := by
  have h1 : rref [[1, 0], [1/10^10, 2/10^10]] = [[1, 0], [1/2, 1]] := by
    norm_num [rref, rrefStep, rrefElimFold, findPivotRow, swapRows, scaleRow, elimRow,
      getm, getv, tol, List.range_succ, abs_eq_ite]
  have h2 : rref [[1, 0], [(1 : ℚ)/2, 1]] = [[1, 0], [0, 1]] := by
    norm_num [rref, rrefStep, rrefElimFold, findPivotRow, swapRows, scaleRow, elimRow,
      getm, getv, tol, List.range_succ, abs_eq_ite]
  rw [h1, h2]
  norm_num

/-- C5, amended.  `rref` is a no-op on any matrix already in exact
reduced row-echelon form; consequently `rref(rref(A)) = rref(A)` for
every `A` whose reduction happens to land in exact RREF.  (In general
idempotence fails: sub-tolerance entries skipped by the elimination
threshold can leave `rref(A)` outside RREF, as the counterexample
shows.) -/
theorem C5_rref_idempotent_on_exact_rref (A : Mat) (h : IsRREF (rref A)) :
    rref (rref A) = rref A :=
  rref_fix h

/-- C5, witness: `[[2,4],[1,3]]` reduces to the identity, which is in
exact RREF. -/
theorem C5_rref_idempotent_on_exact_rref_witness :
    IsRREF (rref [[2, 4], [1, 3]])
    ∧ rref (rref [[2, 4], [1, 3]]) = rref [[2, 4], [1, 3]] := by
  have hr : rref [[2, 4], [1, 3]] = [[1, 0], [0, 1]] := by
    norm_num [rref, rrefStep, rrefElimFold, findPivotRow, swapRows, scaleRow, elimRow,
      getm, getv, tol, List.range_succ, abs_eq_ite]
  have l0 : leadIdx [(1 : ℚ), 0] = some 0 := by
    norm_num [leadIdx, getv, List.range_succ, List.find?]
  have l1 : leadIdx [(0 : ℚ), 1] = some 1 := by
    norm_num [leadIdx, getv, List.range_succ, List.find?]
  have hR : IsRREF [[(1 : ℚ), 0], [0, 1]] := by
    refine ⟨?_, ?_, ?_, ?_, ?_⟩
    · intro r hr
      simp only [List.mem_cons, List.not_mem_nil, or_false] at hr
      rcases hr with h | h <;> subst h <;> rfl
    · intro i j hij hj hnone
      have hj2 : j < 2 := by simpa using hj
      interval_cases j <;> (interval_cases i <;> simp_all [getm])
    · intro i c hi hlead
      have hi2 : i < 2 := by simpa using hi
      interval_cases i
      · rw [show getm [[(1 : ℚ), 0], [0, 1]] 0 = [1, 0] from rfl, l0] at hlead
        injection hlead with h
        rw [← h]
        norm_num [getm, getv]
      · rw [show getm [[(1 : ℚ), 0], [0, 1]] 1 = [0, 1] from rfl, l1] at hlead
        injection hlead with h
        rw [← h]
        norm_num [getm, getv]
    · intro i j ci cj hij hj hi' hj'
      have hj2 : j < 2 := by simpa using hj
      have hi2 : i < 2 := by omega
      interval_cases j <;> (interval_cases i <;> simp_all [getm])
    · intro i c i' hi hlead hi' hne
      have hi2 : i < 2 := by simpa using hi
      have hi2' : i' < 2 := by simpa using hi'
      interval_cases i <;> interval_cases i'
      · exact absurd rfl hne
      · rw [show getm [[(1 : ℚ), 0], [0, 1]] 0 = [1, 0] from rfl, l0] at hlead
        injection hlead with h
        rw [← h]
        norm_num [getm, getv]
      · rw [show getm [[(1 : ℚ), 0], [0, 1]] 1 = [0, 1] from rfl, l1] at hlead
        injection hlead with h
        rw [← h]
        norm_num [getm, getv]
      · exact absurd rfl hne
  rw [hr]
  exact ⟨hR, hr ▸ C5_rref_idempotent_on_exact_rref [[2, 4], [1, 3]] (hr ▸ hR)⟩

/-- The matrix component of the traced elimination loop is exactly the
`rref` elimination loop. -/
theorem gaussElimFold_fst (rows pr col : ℕ) (m : Mat) (sid : ℕ) (steps : List GStep) :
    (gaussElimFold rows pr col (m, sid, steps)).1 = rrefElimFold rows pr col m := by
  rw [gaussElimFold, rrefElimFold]
  apply foldl_sim (fun acc : Mat × ℕ × List GStep => acc.1)
  intro a i
  by_cases h : i ≠ pr ∧ |getv (getm a.1 i) col| > tol
  · simp only [if_pos h]
  · simp only [if_neg h]

/-- Auxiliary: the raw traced elimination fold only appends steps. -/
theorem gaussElimFold_steps_aux (pr col : ℕ) :
    ∀ (l : List ℕ) (acc : Mat × ℕ × List GStep),
    ∃ ext, (l.foldl (fun acc i =>
        if i ≠ pr ∧ |getv (getm acc.1 i) col| > tol then
          let am := acc.1.set i
            (elimRow (getm acc.1 i) (getm acc.1 pr) (getv (getm acc.1 i) col))
          (am, acc.2.1 + 1, acc.2.2 ++ [⟨acc.2.1, GKind.elimStep i pr, am⟩])
        else acc) acc).2.2 = acc.2.2 ++ ext
  | [], acc => ⟨[], by simp⟩
  | i :: rest, acc => by
    rw [List.foldl_cons]
    by_cases h : i ≠ pr ∧ |getv (getm acc.1 i) col| > tol
    · rw [if_pos h]
      obtain ⟨ext, hext⟩ := gaussElimFold_steps_aux pr col rest
        (acc.1.set i (elimRow (getm acc.1 i) (getm acc.1 pr) (getv (getm acc.1 i) col)),
          acc.2.1 + 1, acc.2.2 ++ [⟨acc.2.1, GKind.elimStep i pr,
            acc.1.set i (elimRow (getm acc.1 i) (getm acc.1 pr) (getv (getm acc.1 i) col))⟩])
      refine ⟨⟨acc.2.1, GKind.elimStep i pr,
        acc.1.set i (elimRow (getm acc.1 i) (getm acc.1 pr) (getv (getm acc.1 i) col))⟩
          :: ext, ?_⟩
      rw [hext]
      simp
    · rw [if_neg h]
      exact gaussElimFold_steps_aux pr col rest acc

/-- The traced elimination loop only appends steps. -/
theorem gaussElimFold_steps (rows pr col : ℕ) (init : Mat × ℕ × List GStep) :
    ∃ ext, (gaussElimFold rows pr col init).2.2 = init.2.2 ++ ext := by
  rw [gaussElimFold]
  exact gaussElimFold_steps_aux pr col (List.range rows) init

/-- Each traced column step only appends steps. -/
theorem gaussTraceStep_steps (rows : ℕ) (st : GaussSt) (col : ℕ) :
    ∃ ext, (gaussTraceStep rows st col).steps = st.steps ++ ext := by
  by_cases h1 : st.pr < rows
  · by_cases h2 : |getv (getm st.m (findPivotRow st.m col st.pr rows)) col| < tol
    · exact ⟨[], by simp [gaussTraceStep, h1, h2]⟩
    · simp only [gaussTraceStep, if_pos h1, if_neg h2]
      obtain ⟨ext, hext⟩ := gaussElimFold_steps rows st.pr col _
      rw [hext]
      by_cases h3 : findPivotRow st.m col st.pr rows ≠ st.pr <;>
        by_cases h4 : |getv (getm (if findPivotRow st.m col st.pr rows ≠ st.pr then
            swapRows st.m st.pr (findPivotRow st.m col st.pr rows) else st.m) st.pr) col - 1|
            > tol
      · exact ⟨_, by
          simp only [if_pos h4]; simp only [if_pos h3]
          rw [List.append_assoc, List.append_assoc]⟩
      · exact ⟨_, by simp only [if_neg h4]; simp only [if_pos h3]; rw [List.append_assoc]⟩
      · exact ⟨_, by simp only [if_pos h4]; simp only [if_neg h3]; rw [List.append_assoc]⟩
      · exact ⟨_, by simp only [if_neg h4]; simp only [if_neg h3]; rfl⟩
  · exact ⟨[], by simp [gaussTraceStep, h1]⟩

/-- The near-one-pivot flag never resets. -/
theorem gaussTraceStep_nearOne_mono (rows : ℕ) (st : GaussSt) (col : ℕ)
    (h : st.nearOne = true) : (gaussTraceStep rows st col).nearOne = true := by
  by_cases h1 : st.pr < rows
  · by_cases h2 : |getv (getm st.m (findPivotRow st.m col st.pr rows)) col| < tol
    · simpa [gaussTraceStep, h1, h2] using h
    · simp [gaussTraceStep, if_pos h1, if_neg h2, h]
  · simpa [gaussTraceStep, h1] using h

/-- One traced column step computes the same matrix and cursor as the
corresponding `rref` column step, provided it did not skip a scaling
division on a pivot different from 1 (the flag stayed false). -/
theorem gaussTraceStep_sim (rows : ℕ) (st : GaussSt) (col : ℕ)
    (hafter : (gaussTraceStep rows st col).nearOne = false) :
    ((gaussTraceStep rows st col).m, (gaussTraceStep rows st col).pr)
      = rrefStep rows (st.m, st.pr) col := by
  by_cases h1 : st.pr < rows
  · by_cases h2 : |getv (getm st.m (findPivotRow st.m col st.pr rows)) col| < tol
    · simp [gaussTraceStep, rrefStep, h1, h2]
    · have hm1 : (if findPivotRow st.m col st.pr rows ≠ st.pr then
          swapRows st.m st.pr (findPivotRow st.m col st.pr rows) else st.m)
          = swapRows st.m st.pr (findPivotRow st.m col st.pr rows) := by
        by_cases h3 : findPivotRow st.m col st.pr rows ≠ st.pr
        · rw [if_pos h3]
        · rw [if_neg h3]
          push_neg at h3
          rw [h3, swapRows_self]
      simp only [gaussTraceStep, if_pos h1, if_neg h2, hm1] at hafter ⊢
      simp only [rrefStep, if_pos h1, if_neg h2]
      by_cases h4 : |getv (getm (swapRows st.m st.pr (findPivotRow st.m col st.pr rows))
          st.pr) col - 1| > tol
      · simp only [if_pos h4]
        rw [gaussElimFold_fst]
      · have hpivot : getv (getm (swapRows st.m st.pr (findPivotRow st.m col st.pr rows))
            st.pr) col = 1 := by
          simp only [if_neg h4, Bool.or_eq_false_iff, Bool.and_eq_false_iff] at hafter
          rcases hafter.2 with h | h
          · rw [decide_eq_false h4] at h
            simp at h
          · simpa using h
        simp only [if_neg h4]
        rw [gaussElimFold_fst, hpivot, scaleRow_one]
        rw [show (swapRows st.m st.pr (findPivotRow st.m col st.pr rows)).set st.pr
            (getm (swapRows st.m st.pr (findPivotRow st.m col st.pr rows)) st.pr)
            = swapRows st.m st.pr (findPivotRow st.m col st.pr rows) by
          simp only [getm]
          exact set_getD_self _ _ _]
  · simp [gaussTraceStep, rrefStep, h1]

/-- Flag monotonicity over a whole run. -/
theorem gaussFold_nearOne_mono (rows : ℕ) : ∀ (l : List ℕ) (st : GaussSt),
    st.nearOne = true → ((l.foldl (gaussTraceStep rows) st).nearOne = true)
  | [], st, h => h
  | c :: rest, st, h => by
    rw [List.foldl_cons]
    exact gaussFold_nearOne_mono rows rest _ (gaussTraceStep_nearOne_mono rows st c h)

/-- A clean traced run (flag false throughout) computes exactly the
`rref` fold on the matrix/cursor components. -/
theorem gaussFold_sim (rows : ℕ) : ∀ (l : List ℕ) (st : GaussSt),
    (l.foldl (gaussTraceStep rows) st).nearOne = false →
    ((l.foldl (gaussTraceStep rows) st).m, (l.foldl (gaussTraceStep rows) st).pr)
      = l.foldl (rrefStep rows) (st.m, st.pr)
  | [], st, _ => rfl
  | c :: rest, st, h => by
    rw [List.foldl_cons] at h ⊢
    have hst1 : (gaussTraceStep rows st c).nearOne = false := by
      by_contra hne
      rw [Bool.not_eq_false] at hne
      rw [gaussFold_nearOne_mono rows rest _ hne] at h
      exact Bool.noConfusion h
    rw [gaussFold_sim rows rest _ h, gaussTraceStep_sim rows st c hst1,
      List.foldl_cons]

/-- The traced run only ever appends steps after the starting step. -/
theorem gaussFold_steps (rows : ℕ) : ∀ (l : List ℕ) (st : GaussSt),
    ∃ ext, (l.foldl (gaussTraceStep rows) st).steps = st.steps ++ ext
  | [], st => ⟨[], by simp⟩
  | c :: rest, st => by
    rw [List.foldl_cons]
    obtain ⟨e1, he1⟩ := gaussTraceStep_steps rows st c
    obtain ⟨e2, he2⟩ := gaussFold_steps rows rest (gaussTraceStep rows st c)
    exact ⟨e1 ++ e2, by rw [he2, he1, List.append_assoc]⟩

/-- C6, counterexample.  On `[[1 + 1e-11]]` the selected pivot differs
from 1 by `1e-11 ≤ 1e-10`, so the trace skips the scaling division while
`rref` performs it: the trace's final snapshot keeps `1 + 1e-11`, but
`rref` returns `[[1]]`. -/
theorem C6_final_snapshot_counterexample :
    generateGaussianSteps [[1 + 1/10^11]]
      = [⟨0, .start, [[1 + 1/10^11]]⟩, ⟨1, .complete, [[1 + 1/10^11]]⟩]
    ∧ rref [[1 + 1/10^11]] = [[1]]
    ∧ (1 + 1/10^11 : ℚ) ≠ 1 := by
  refine ⟨?_, ?_, by norm_num⟩
  · norm_num [generateGaussianSteps, generateGaussianStepsAux, gaussTraceStep,
      gaussElimFold, findPivotRow, swapRows, scaleRow, elimRow, getm, getv, tol,
      List.range_succ, abs_eq_ite]
  · norm_num [rref, rrefStep, rrefElimFold, findPivotRow, swapRows, scaleRow, elimRow,
      getm, getv, tol, List.range_succ, abs_eq_ite]

/-- C6, amended.  Every traced run is a finite sequence that begins with
the starting-state step showing the input and ends with the terminal
completion step; the completion step's snapshot equals `rref(A)` provided
every pivot selected during the run is either exactly 1 or farther than
1e-10 from 1 (otherwise the trace skips a scaling division that `rref`
performs, and the snapshots can differ). -/
theorem C6_trace_brackets_and_final (A : Mat) :
    (generateGaussianSteps A).head? = some ⟨0, GKind.start, A⟩
    ∧ (generateGaussianSteps A).getLast?
        = some ⟨(generateGaussianStepsAux A).sid, GKind.complete,
            (generateGaussianStepsAux A).m⟩
    ∧ (gaussTraceNearOnePivot A = false → (generateGaussianStepsAux A).m = rref A) := by
  refine ⟨?_, ?_, ?_⟩
  · obtain ⟨ext, hext⟩ := gaussFold_steps A.length (List.range (getm A 0).length)
      ⟨A, 0, 1, [⟨0, .start, A⟩], false⟩
    rw [generateGaussianSteps, show (generateGaussianStepsAux A).steps
        = [⟨0, GKind.start, A⟩] ++ ext from hext]
    rfl
  · rw [generateGaussianSteps, List.getLast?_concat]
  · intro hflag
    have := gaussFold_sim A.length (List.range (getm A 0).length)
      ⟨A, 0, 1, [⟨0, .start, A⟩], false⟩ hflag
    rw [rref]
    exact congrArg Prod.fst this

/-- C6, witness: a clean run on `[[2,0],[0,3]]`. -/
theorem C6_trace_brackets_and_final_witness :
    gaussTraceNearOnePivot [[2, 0], [0, 3]] = false
    ∧ (generateGaussianStepsAux [[2, 0], [0, 3]]).m = rref [[2, 0], [0, 3]] := by
  have h : gaussTraceNearOnePivot [[2, 0], [0, 3]] = false := by
    norm_num [gaussTraceNearOnePivot, generateGaussianStepsAux, gaussTraceStep,
      gaussElimFold, findPivotRow, swapRows, scaleRow, elimRow, getm, getv, tol,
      List.range_succ, abs_eq_ite]
  exact ⟨h, (C6_trace_brackets_and_final [[2, 0], [0, 3]]).2.2 h⟩

/-! ## Claim C10: determinant of the transpose -/

/-- C10, confirmed.  For every square matrix of size `n ≥ 1` (in exact
arithmetic), the recursive first-row cofactor determinant of the
transpose equals the determinant of the matrix itself. -/
theorem C10_det_transpose (A : Mat) (n : ℕ) (hA : A.length = n)
    (hrows : ∀ r ∈ A, r.length = n) (h1 : 1 ≤ n) :
    determinant (transpose A) = determinant A := by
  have hA0 : (getm A 0).length = n := getm_zero_length hA h1 hrows
  have hTlen : (transpose A).length = n := by rw [transpose_length, hA0]
  have hTrows : ∀ r ∈ transpose A, r.length = n := by
    intro r hr
    rw [transpose_rows A r hr, hA]
  have hT0 : (getm (transpose A) 0).length = n := getm_zero_length hTlen h1 hTrows
  rw [determinant, determinant, if_neg (by omega), if_neg (by omega)]
  congr 1
  rw [detVal_eq_det hTlen hTrows h1, detVal_eq_det hA hrows h1,
    toFin_transpose hA hA0, Matrix.det_transpose]

/-- C10, witness: the spec's 2×2 example. -/
theorem C10_det_transpose_witness :
    determinant (transpose [[1, 2], [3, 4]]) = determinant [[1, 2], [3, 4]] :=
  C10_det_transpose [[1, 2], [3, 4]] 2 rfl
    (by intro r hr
        simp only [List.mem_cons, List.not_mem_nil, or_false] at hr
        rcases hr with h | h <;> subst h <;> rfl)
    (by omega)

/-! ## Claim C3: matrix powers -/

/-- C3, counterexample.  The exponent-0 case of `matrixPower` does return
the identity, but the `'power'` branch the calculator invokes guards with
`!power || power < 0`, and `!0` is true in JavaScript: invoking the
matrix-power operation with exponent 0 throws `Power must be a positive
integer` instead of succeeding. -/
theorem C3_power_zero_counterexample :
    calculateMatrixFunctionPower [[(5 : ℚ)]] (some 0) = .error .invalidPower
    ∧ matrixPower [[(5 : ℚ)]] 0 = .ok [[1]] := by
  constructor
  · norm_num [calculateMatrixFunctionPower, getm]
  · norm_num [matrixPower, identityMatrix, List.range_succ]

/-- C3, amended.  For a square matrix `A` of size `n ≥ 1`, `matrixPower`
itself meets the claim: exponent 0 gives the identity, exponent 1 gives
`A` back, and every exponent `p` succeeds with the `p`-fold product
(denoting `(toFin A)^p`); but the exposed operation
(`calculateMatrixFunction` with `'power'`) only forwards exponents
`p ≥ 1` and rejects `p = 0` (and negative or missing exponents) with an
error. -/
theorem C3_matrixPower_spec (A : Mat) (n : ℕ) (hA : A.length = n)
    (hArows : ∀ r ∈ A, r.length = n) (h1 : 1 ≤ n) :
    matrixPower A 0 = .ok (identityMatrix n)
    ∧ matrixPower A 1 = .ok A
    ∧ (∀ p : ℕ, ∃ M, matrixPower A p = .ok M ∧ M.length = n
        ∧ toFin M n = (toFin A n) ^ p)
    ∧ (∀ p : ℤ, 1 ≤ p → calculateMatrixFunctionPower A (some p) = matrixPower A p.toNat)
    ∧ calculateMatrixFunctionPower A (some 0) = .error .invalidPower := by
  have hA0 : (getm A 0).length = n := getm_zero_length hA h1 hArows
  refine ⟨?_, ?_, ?_, ?_, ?_⟩
  · simp [matrixPower, hA]
  · simp [matrixPower]
  · intro p
    match p with
    | 0 =>
      refine ⟨identityMatrix n, by simp [matrixPower, hA], (identityMatrix_length n).1, ?_⟩
      rw [toFin_identityMatrix, pow_zero]
    | 1 => exact ⟨A, by simp [matrixPower], hA, by rw [pow_one]⟩
    | p + 2 =>
      obtain ⟨M, hM, hMlen, _, hMfin⟩ :=
        power_fold hA hA0 hArows h1 (p + 1) A hA hArows
      refine ⟨M, ?_, hMlen, ?_⟩
      · simpa [matrixPower] using hM
      · rw [hMfin, ← pow_succ']
  · intro p hp
    have h0 : ¬ (p = 0 ∨ p < 0) := by omega
    simp [calculateMatrixFunctionPower, hA, hA0, h0]
  · simp [calculateMatrixFunctionPower, hA, hA0]

/-- C3, witness: the amended statement at the 1×1 matrix `[[5]]`. -/
theorem C3_matrixPower_spec_witness :
    matrixPower [[(5 : ℚ)]] 0 = .ok (identityMatrix 1)
    ∧ matrixPower [[(5 : ℚ)]] 1 = .ok [[(5 : ℚ)]]
    ∧ (∀ p : ℕ, ∃ M, matrixPower [[(5 : ℚ)]] p = .ok M ∧ M.length = 1
        ∧ toFin M 1 = (toFin [[(5 : ℚ)]] 1) ^ p)
    ∧ (∀ p : ℤ, 1 ≤ p →
        calculateMatrixFunctionPower [[(5 : ℚ)]] (some p)
          = matrixPower [[(5 : ℚ)]] p.toNat)
    ∧ calculateMatrixFunctionPower [[(5 : ℚ)]] (some 0) = .error .invalidPower :=
  C3_matrixPower_spec [[(5 : ℚ)]] 1 rfl
    (by intro r hr; rw [List.mem_singleton] at hr; rw [hr]; rfl) (by omega)

/-! ## Claim C4: inverse round-trip -/

/-- C4, counterexample.  `A = diag(1e-11, 1e11, 1)` has determinant 1
(well above the 1e-10 singularity tolerance), yet because Gauss–Jordan
silently skips the sub-tolerance pivot of column 0, `inverse` returns a
wrong matrix and `multiply(A, inverse(A))` has top-left entry `1e-11`,
at distance ≈ 1 (far beyond 1e-8) from the identity's 1. -/
theorem C4_roundtrip_counterexample :
    tol ≤ |detVal [[1/10^11, 0, 0], [0, 10^11, 0], [0, 0, 1]]|
    ∧ inverse [[1/10^11, 0, 0], [0, 10^11, 0], [0, 0, 1]]
        = .ok [[1, 0, 0], [0, 1/10^11, 0], [0, 0, 1]]
    ∧ multiplyMatrices [[1/10^11, 0, 0], [0, 10^11, 0], [0, 0, 1]]
        [[1, 0, 0], [0, 1/10^11, 0], [0, 0, 1]]
        = .ok [[1/10^11, 0, 0], [0, 1, 0], [0, 0, 1]]
    ∧ ¬ |getv (getm [[1/10^11, 0, 0], [0, 1, 0], [0, 0, 1]] 0) 0
          - getv (getm (identityMatrix 3) 0) 0| ≤ 1/10^8 := by
  refine ⟨?_, C2_skipped_pivot_counterexample.2, ?_, ?_⟩
  · norm_num [detVal, detValAux, minorM, getm, getv, tol, List.range_succ, abs_eq_ite]
  · norm_num [multiplyMatrices, multVal, getm, getv, List.range_succ]
  · norm_num [identityMatrix, getm, getv, List.range_succ, abs_eq_ite]

/-- C4, amended.  For every 1×1 or 2×2 matrix whose determinant clears
the 1e-10 tolerance, `multiply(A, inverse(A))` is exactly the identity
(hence entrywise within 1e-8 of it); for larger matrices the round-trip
can fail outright when Gauss–Jordan skips a sub-tolerance pivot. -/
theorem C4_roundtrip_small (A : Mat) (h12 : A.length = 1 ∨ A.length = 2)
    (hsq : ∀ r ∈ A, r.length = A.length) (hdet : tol ≤ |detVal A|) :
    ∃ B, inverse A = .ok B
      ∧ multiplyMatrices A B = .ok (identityMatrix A.length) := by
  have hd0 : detVal A ≠ 0 := by
    intro h
    rw [h] at hdet
    simp [tol] at hdet
    norm_num at hdet
  have hnlt : ¬ |detVal A| < tol := not_lt.mpr hdet
  rcases h12 with h1 | h2
  · obtain ⟨r, rfl⟩ : ∃ r, A = [r] := by
      match A, h1 with
      | [r], _ => exact ⟨r, rfl⟩
    obtain ⟨a, rfl⟩ : ∃ a, r = [a] := by
      have hr : r.length = 1 := by simpa using hsq r (by simp)
      match r, hr with
      | [a], _ => exact ⟨a, rfl⟩
    have ha : a ≠ 0 := by
      simpa [detVal, detValAux, getm, getv] using hd0
    refine ⟨[[1/a]], ?_, ?_⟩
    · have hgj : gaussJordan (augmentIdentity [[a]]) = [[1, 1/a]] := by
        simp only [gaussJordan, gaussJordanAux, augmentIdentity, getm, getv]
        norm_num [List.range_succ]
        simp only [gjStep, findPivotRow, swapRows, scaleRow, elimRow, getm, getv]
        norm_num [List.range_succ,
          if_neg (show ¬ |a| < tol by simpa [detVal, detValAux, getm, getv] using hnlt)]
        rw [div_self ha]
      simp only [inverse, hgj]
      rw [if_neg (by simp [getm]), if_neg (by simpa [detVal, detValAux, getm, getv]
        using hnlt), if_neg (by norm_num)]
      norm_num [getm]
    · simp only [multiplyMatrices, multVal, identityMatrix, getm, getv]
      norm_num [List.range_succ]
      exact mul_inv_cancel₀ ha
  · obtain ⟨r1, r2, rfl⟩ : ∃ r1 r2, A = [r1, r2] := by
      match A, h2 with
      | [r1, r2], _ => exact ⟨r1, r2, rfl⟩
    obtain ⟨a, b, rfl⟩ : ∃ a b, r1 = [a, b] := by
      have hr : r1.length = 2 := by simpa using hsq r1 (by simp)
      match r1, hr with
      | [a, b], _ => exact ⟨a, b, rfl⟩
    obtain ⟨c, d, rfl⟩ : ∃ c d, r2 = [c, d] := by
      have hr : r2.length = 2 := by simpa using hsq r2 (by simp)
      match r2, hr with
      | [c, d], _ => exact ⟨c, d, rfl⟩
    have hD : a * d - b * c ≠ 0 := by
      simpa [detVal, detValAux, getm, getv] using hd0
    have hDval : detVal [[a, b], [c, d]] = a * d - b * c := by
      simp [detVal, detValAux, getm, getv]
    refine ⟨[[d / (a * d - b * c), -b / (a * d - b * c)],
             [-c / (a * d - b * c), a / (a * d - b * c)]], ?_, ?_⟩
    · simp only [inverse]
      rw [if_neg (by simp [getm]), if_neg (by rw [hDval] at hnlt; exact hnlt),
        if_pos (show ([[a, b], [c, d]] : Mat).length = 2 from rfl)]
      norm_num [getm, getv, hDval]
    · simp only [multiplyMatrices, multVal, identityMatrix, getm, getv]
      norm_num [List.range_succ]
      refine ⟨⟨?_, ?_⟩, ?_, ?_⟩ <;> field_simp <;> ring

/-- C4, witness: the spec's own example `A = [[1,2],[3,4]]`. -/
theorem C4_roundtrip_small_witness :
    ∃ B, inverse [[1, 2], [3, 4]] = .ok B
      ∧ multiplyMatrices [[1, 2], [3, 4]] B
          = .ok (identityMatrix (List.length [[1, 2], [3, 4]])) :=
  C4_roundtrip_small [[1, 2], [3, 4]] (Or.inr rfl)
    (by intro r hr
        simp only [List.mem_cons, List.not_mem_nil, or_false] at hr
        rcases hr with h | h <;> subst h <;> rfl)
    (by norm_num [detVal, detValAux, getm, getv, tol, abs_eq_ite])

/-! ## Claim C7: LU trace termination -/

/-- Shape of the inner LU elimination loop: it either runs to completion
having appended only elimination steps, or aborts with the steps so far
plus the single zero-pivot error step. -/
theorem luInner_shape (k : ℕ) : ∀ (is : List ℕ) (U L : Mat) (sid : ℕ)
    (steps : List LStep),
    (∃ U' L' sid' ext, luInner k is U L sid steps = .cont U' L' sid' (steps ++ ext)
      ∧ ∀ s ∈ ext, ∃ i, s.kind = LKind.luElim i k)
    ∨ (∃ ext sid', luInner k is U L sid steps
          = .abort (steps ++ (ext ++ [⟨sid', .luZeroPivot⟩]))
      ∧ ∀ s ∈ ext, ∃ i, s.kind = LKind.luElim i k) := by
  intro is
  induction is with
  | nil =>
    intro U L sid steps
    exact Or.inl ⟨U, L, sid, [], by simp [luInner]⟩
  | cons i rest ih =>
    intro U L sid steps
    by_cases hz : |getv (getm U k) k| < tol
    · refine Or.inr ⟨[], sid, ?_, by simp⟩
      simp [luInner, hz]
    · have step := ih (U.set i (elimRowFrom (getm U i) (getm U k)
          (getv (getm U i) k / getv (getm U k) k) k))
        (L.set i ((getm L i).set k (getv (getm U i) k / getv (getm U k) k)))
        (sid + 1) (steps ++ [⟨sid, .luElim i k⟩])
      rcases step with ⟨U', L', sid', ext, heq, hext⟩ | ⟨ext, sid', heq, hext⟩
      · refine Or.inl ⟨U', L', sid', ⟨sid, .luElim i k⟩ :: ext, ?_, ?_⟩
        · rw [show luInner k (i :: rest) U L sid steps
              = luInner k rest (U.set i (elimRowFrom (getm U i) (getm U k)
                  (getv (getm U i) k / getv (getm U k) k) k))
                (L.set i ((getm L i).set k (getv (getm U i) k / getv (getm U k) k)))
                (sid + 1) (steps ++ [⟨sid, .luElim i k⟩]) by
            simp [luInner, hz]]
          rw [heq]
          simp
        · intro s hs
          rcases List.mem_cons.mp hs with h | h
          · exact ⟨i, by rw [h]⟩
          · exact hext s h
      · refine Or.inr ⟨⟨sid, .luElim i k⟩ :: ext, sid', ?_, ?_⟩
        · rw [show luInner k (i :: rest) U L sid steps
              = luInner k rest (U.set i (elimRowFrom (getm U i) (getm U k)
                  (getv (getm U i) k / getv (getm U k) k) k))
                (L.set i ((getm L i).set k (getv (getm U i) k / getv (getm U k) k)))
                (sid + 1) (steps ++ [⟨sid, .luElim i k⟩]) by
            simp [luInner, hz]]
          rw [heq]
          simp
        · intro s hs
          rcases List.mem_cons.mp hs with h | h
          · exact ⟨i, by rw [h]⟩
          · exact hext s h

/-- A step kind emitted strictly inside the LU loops (neither terminal
kind, nor the initialize step). -/
def luMidKind (kd : LKind) : Prop :=
  (∃ j, kd = LKind.luColumn j) ∨ ∃ i j, kd = LKind.luElim i j

/-- Shape of the outer LU loop: the result is the incoming steps, then
inner-loop steps, then exactly one terminal step — the completion step
when the abort flag is false, the zero-pivot error step when it is true. -/
theorem luOuter_shape (n : ℕ) : ∀ (ks : List ℕ) (U L : Mat) (sid : ℕ)
    (steps : List LStep),
    ∃ ext sid' flag, luOuter n ks U L sid steps
        = (steps ++ (ext ++ [⟨sid', if flag then LKind.luZeroPivot else LKind.luComplete⟩]),
           flag)
      ∧ ∀ s ∈ ext, luMidKind s.kind := by
  intro ks
  induction ks with
  | nil =>
    intro U L sid steps
    exact ⟨[], sid, false, by simp [luOuter], by simp⟩
  | cons k rest ih =>
    intro U L sid steps
    rcases luInner_shape k (List.range' (k + 1) (n - (k + 1))) U L (sid + 1)
        (steps ++ [⟨sid, .luColumn k⟩]) with
      ⟨U', L', sid', ext, heq, hext⟩ | ⟨ext, sid', heq, hext⟩
    · obtain ⟨ext2, sid2, flag, heq2, hext2⟩ := ih U' L' sid' ((steps ++ [⟨sid, .luColumn k⟩]) ++ ext)
      refine ⟨⟨sid, .luColumn k⟩ :: (ext ++ ext2), sid2, flag, ?_, ?_⟩
      · rw [show luOuter n (k :: rest) U L sid steps
            = luOuter n rest U' L' sid' ((steps ++ [⟨sid, .luColumn k⟩]) ++ ext) by
          simp only [luOuter, heq]]
        rw [heq2]
        simp
      · intro s hs
        rcases List.mem_cons.mp hs with h | h
        · exact Or.inl ⟨k, by rw [h]⟩
        · rcases List.mem_append.mp h with h' | h'
          · obtain ⟨i, hi⟩ := hext s h'
            exact Or.inr ⟨i, k, hi⟩
          · exact hext2 s h'
    · refine ⟨⟨sid, .luColumn k⟩ :: ext, sid', true, ?_, ?_⟩
      · rw [show luOuter n (k :: rest) U L sid steps
            = ((steps ++ [⟨sid, .luColumn k⟩]) ++ (ext ++ [⟨sid', .luZeroPivot⟩]), true) by
          simp only [luOuter, heq]]
        simp
      · intro s hs
        rcases List.mem_cons.mp hs with h | h
        · exact Or.inl ⟨k, by rw [h]⟩
        · obtain ⟨i, hi⟩ := hext s h
          exact Or.inr ⟨i, k, hi⟩

/-- C7, confirmed.  For every square matrix, the traced LU decomposition
is a total function: the trace opens with the initialize step, and ends
with exactly one terminal step.  When a pivot below the 1e-10 tolerance
is met while eliminating a column, the trace stops early: it is the steps
produced so far with one final explanatory zero-pivot error step appended
(no completion step, no step after the error); otherwise it ends with the
completion step and contains no error step. -/
theorem C7_lu_trace_termination (A : Mat) (hsq : A.length = (getm A 0).length) :
    (generateLUSteps A).head? = some ⟨0, .luInit⟩
    ∧ (luHitsZeroPivot A = true →
        ∃ pre sid, generateLUSteps A = pre ++ [⟨sid, .luZeroPivot⟩]
          ∧ ∀ s ∈ pre, s.kind ≠ LKind.luZeroPivot ∧ s.kind ≠ LKind.luComplete)
    ∧ (luHitsZeroPivot A = false →
        ∃ pre sid, generateLUSteps A = pre ++ [⟨sid, .luComplete⟩]
          ∧ ∀ s ∈ pre, s.kind ≠ LKind.luZeroPivot ∧ s.kind ≠ LKind.luComplete) := by
  obtain ⟨ext, sid', flag, heq, hext⟩ :=
    luOuter_shape A.length (List.range (A.length - 1)) A (identityMatrix A.length) 1
      [⟨0, .luInit⟩]
  have haux : generateLUStepsAux A
      = ([⟨0, .luInit⟩] ++ (ext ++ [⟨sid', if flag then LKind.luZeroPivot
          else LKind.luComplete⟩]), flag) := by
    rw [generateLUStepsAux, if_neg (by omega)]
    exact heq
  have hpre : ∀ s ∈ ([⟨0, .luInit⟩] : List LStep) ++ ext,
      s.kind ≠ LKind.luZeroPivot ∧ s.kind ≠ LKind.luComplete := by
    intro s hs
    rcases List.mem_append.mp hs with h | h
    · rw [List.mem_singleton] at h
      rw [h]
      exact ⟨by simp, by simp⟩
    · rcases hext s h with ⟨j, hj⟩ | ⟨i, j, hij⟩
      · rw [hj]
        exact ⟨by simp, by simp⟩
      · rw [hij]
        exact ⟨by simp, by simp⟩
  refine ⟨?_, ?_, ?_⟩
  · rw [generateLUSteps, haux]
    rfl
  · intro hflag
    refine ⟨[⟨0, .luInit⟩] ++ ext, sid', ?_, hpre⟩
    rw [generateLUSteps, haux]
    have : flag = true := by
      have : luHitsZeroPivot A = flag := by rw [luHitsZeroPivot, haux]
      rw [← this, hflag]
    rw [this]
    simp
  · intro hflag
    refine ⟨[⟨0, .luInit⟩] ++ ext, sid', ?_, hpre⟩
    rw [generateLUSteps, haux]
    have : flag = false := by
      have : luHitsZeroPivot A = flag := by rw [luHitsZeroPivot, haux]
      rw [← this, hflag]
    rw [this]
    simp

/-- C7, witness: the trace of `[[0,1],[1,0]]`, whose first pivot is 0. -/
theorem C7_lu_trace_termination_witness :
    (generateLUSteps [[0, 1], [1, 0]]).head? = some ⟨0, .luInit⟩
    ∧ (luHitsZeroPivot [[0, 1], [1, 0]] = true →
        ∃ pre sid, generateLUSteps [[0, 1], [1, 0]] = pre ++ [⟨sid, .luZeroPivot⟩]
          ∧ ∀ s ∈ pre, s.kind ≠ LKind.luZeroPivot ∧ s.kind ≠ LKind.luComplete)
    ∧ (luHitsZeroPivot [[0, 1], [1, 0]] = false →
        ∃ pre sid, generateLUSteps [[0, 1], [1, 0]] = pre ++ [⟨sid, .luComplete⟩]
          ∧ ∀ s ∈ pre, s.kind ≠ LKind.luZeroPivot ∧ s.kind ≠ LKind.luComplete) :=
  C7_lu_trace_termination [[0, 1], [1, 0]] (by rfl)

/-! ## Claim C8: non-mutation and freshness of results -/

/-- C8, counterexample.  `matrixPower(A, 1)` executes `return A`: at the
reference level the call returns the input reference (0) itself, not a
fresh object, refuting the claim that every matrix-returning operation
returns a new matrix rather than one of its inputs. -/
theorem C8_power_alias_counterexample :
    matrixPowerRef [[[(2 : ℚ)]]] 0 1 = ([[[(2 : ℚ)]]], some 0) := rfl

/-- C8, amended.  Every core operation leaves the contents of every
existing object (in particular its inputs) unchanged, and returns a
freshly allocated result — with the single exception of `matrixPower`
with exponent 1, which returns its input object itself (still
unmodified). -/
theorem C8_operations_frame (s : List Mat) (vs : List (List ℝ)) (a b va vb : ℕ)
    (c : ℚ) (p : ℕ) (ha : a < s.length) (hb : b < s.length)
    (hva : va < vs.length) (hvb : vb < vs.length) :
    opsFrameProp s vs a b va vb c p := by
  have fresh : ∀ {α β : Type} (t : List α) (e : Except β α),
      (∃ ext, (refOf t e).1 = t ++ ext) ∧ ∀ r, (refOf t e).2 = some r → r = t.length := by
    intro α β t e
    cases e with
    | error _ => exact ⟨⟨[], by simp [refOf]⟩, by simp [refOf]⟩
    | ok v =>
      exact ⟨⟨[v], by simp [refOf, refOk, alloc]⟩, by simp [refOf, refOk, alloc]⟩
  have haN : a ≠ s.length := by omega
  have hbN : b ≠ s.length := by omega
  have hvaN : va ≠ vs.length := by omega
  have hvbN : vb ≠ vs.length := by omega
  refine ⟨?_, ?_, ?_, ?_, ?_, rfl, ?_, ?_, rfl, ?_, rfl, ?_, rfl, ?_, rfl⟩
  · exact ⟨(fresh s _).1, fun r hr => by
      have := (fresh s _).2 r hr; subst this; exact ⟨haN.symm, hbN.symm⟩⟩
  · exact ⟨(fresh s _).1, fun r hr => by
      have := (fresh s _).2 r hr; subst this; exact ⟨haN.symm, hbN.symm⟩⟩
  · exact ⟨(fresh s _).1, fun r hr => by
      have := (fresh s _).2 r hr; subst this; exact ⟨haN.symm, hbN.symm⟩⟩
  · refine ⟨⟨[scalarMultiply (s.getD a []) c], by simp [scalarMultiplyRef, refOk, alloc]⟩, ?_⟩
    intro r hr
    simp [scalarMultiplyRef, refOk, alloc] at hr
    omega
  · refine ⟨⟨[transpose (s.getD a [])], by simp [transposeRef, refOk, alloc]⟩, ?_⟩
    intro r hr
    simp [transposeRef, refOk, alloc] at hr
    omega
  · exact ⟨(fresh s _).1, fun r hr => by
      have := (fresh s _).2 r hr; subst this; exact haN.symm⟩
  · refine ⟨⟨[rref (s.getD a [])], by simp [rrefRef, refOk, alloc]⟩, ?_⟩
    intro r hr
    simp [rrefRef, refOk, alloc] at hr
    omega
  · by_cases hp : p = 1
    · subst hp
      exact ⟨⟨[], by simp [matrixPowerRef]⟩, fun h => absurd rfl h, fun _ => rfl⟩
    · refine ⟨?_, fun _ r hr => ?_, fun h => absurd h hp⟩
      · obtain ⟨ext, hext⟩ := (fresh s (matrixPower (s.getD a []) p)).1
        exact ⟨ext, by simpa [matrixPowerRef, hp] using hext⟩
      · have hr' : (refOf s (matrixPower (s.getD a []) p)).2 = some r := by
          simpa [matrixPowerRef, hp] using hr
        have := (fresh s _).2 r hr'
        omega
  · exact ⟨(fresh vs _).1, fun r hr => by
      have := (fresh vs _).2 r hr; subst this; exact ⟨hvaN.symm, hvbN.symm⟩⟩
  · exact ⟨(fresh vs _).1, fun r hr => by
      have := (fresh vs _).2 r hr; subst this; exact hvaN.symm⟩

/-- C8, witness: the amended frame contract at a concrete two-object
store. -/
theorem C8_operations_frame_witness :
    opsFrameProp [[[1, 2], [3, 4]], [[5, 6], [7, 8]]] [[1, 0], [0, 1]] 0 1 0 1 3 2 :=
  C8_operations_frame _ _ 0 1 0 1 3 2 (by decide) (by decide) (by decide) (by decide)

end MatrixMagic
